import Mathlib

set_option maxRecDepth 8000

/-!
Verification development for the MetaNetX data service core
(`src/metanetx/data.py`, `src/metanetx/parser.py`, `src/metanetx/resources.py`).

Python strings are modelled as `String`/`List Char`; Python `float` values are
idealised as `ℚ` (the parser only ever builds floats from decimal literals, and
the only arithmetic applied is negation, which is exact); Python exceptions
(`ValueError`, `KeyError`, `IndexError`) are modelled by `Option`, with `none`
for a raised exception; Python dicts are modelled as insertion-ordered
association lists with overwrite-in-place semantics, matching CPython's
order-preserving dicts.
-/

/-! ## Equation parsing: `Reaction.parse_equation` and `Reaction.metabolite_regex`

The regex is `^([\d\.]+) (\w+)@(\w+)$`.  `\d`/`\w` are modelled at ASCII level
(digits, alphanumerics and underscore), matching every identifier in the claims
and in the MetaNetX tables.  Python's `$` also matches just before one trailing
newline, hence `stripNl`.  Since the three groups are character classes that
exclude their following delimiters, greedy regex matching is equivalent to the
deterministic longest-run scan implemented here. -/

def isCoeffChar (c : Char) : Bool := c.isDigit || c = '.'

def isWordChar (c : Char) : Bool := c.isAlphanum || c = '_'

def stripNl (s : List Char) : List Char :=
  if s.getLast? = some '\n' then s.dropLast else s

/-- Model of `re.match(Reaction.metabolite_regex, s)`: returns the three
captured groups (coefficient literal, metabolite id, compartment id). -/
def matchTerm (s : List Char) : Option (List Char × List Char × List Char) :=
  let t := stripNl s
  let coeff := t.takeWhile isCoeffChar
  let r1 := t.dropWhile isCoeffChar
  if coeff.isEmpty then none
  else
    match r1 with
    | [] => none
    | c1 :: r2 =>
      if c1 = ' ' then
        let met := r2.takeWhile isWordChar
        let r3 := r2.dropWhile isWordChar
        if met.isEmpty then none
        else
          match r3 with
          | [] => none
          | c2 :: comp =>
            if c2 = '@' then
              if !comp.isEmpty && comp.all isWordChar then some (coeff, met, comp)
              else none
            else none
      else none

/-- Value of a digit string read in base 10. -/
def decVal (s : List Char) : Nat := s.foldl (fun n c => n * 10 + (c.toNat - '0'.toNat)) 0

/-- Model of Python `float(s)` restricted to the strings the regex group
`[\d\.]+` can produce: at most one dot and at least one digit denote the
decimal value; anything else (`"."`, `"1.2.3"`, ...) raises `ValueError`. -/
def parseCoeff (s : List Char) : Option ℚ :=
  match s.splitOn '.' with
  | [d] => if !d.isEmpty && d.all Char.isDigit then some (decVal d : ℚ) else none
  | [a, b] =>
    if !(a ++ b).isEmpty && (a ++ b).all Char.isDigit then
      some ((decVal (a ++ b) : ℚ) / (10 : ℚ) ^ b.length)
    else none
  | _ => none

/-- One parsed stoichiometry term (the dict appended by `parse_equation`). -/
structure EquationTerm where
  metabolite_id : String
  compartment_id : String
  coefficient : ℚ
deriving DecidableEq

/-- Parse one term of the equation; `neg` selects the substrate side, where the
source computes `float(coefficient) * -1`. -/
def termParse (neg : Bool) (t : List Char) : Option EquationTerm :=
  match matchTerm t with
  | none => none
  | some (c, m, k) =>
    match parseCoeff c with
    | none => none
    | some q =>
      some { metabolite_id := String.mk m, compartment_id := String.mk k,
             coefficient := if neg then -q else q }

/-- Boolean prefix test on character lists. -/
def isPre : List Char → List Char → Bool
  | [], _ => true
  | _ :: _, [] => false
  | a :: as, b :: bs => a == b && isPre as bs

/-- First occurrence of a non-empty `sep` in a string: the part before it and
the part after it, or `none` when `sep` does not occur. -/
def findSplit (sep : List Char) : List Char → Option (List Char × List Char)
  | [] => none
  | c :: rest =>
    if isPre sep (c :: rest) then some ([], (c :: rest).drop sep.length)
    else
      match findSplit sep rest with
      | none => none
      | some (a, b) => some (c :: a, b)

/-- Fuel-driven model of Python `str.split(sep)` for a non-empty separator:
split at every non-overlapping occurrence, left to right. -/
def pySplitF (sep : List Char) : Nat → List Char → List (List Char)
  | 0, s => [s]
  | fuel + 1, s =>
    match findSplit sep s with
    | none => [s]
    | some (a, b) => a :: pySplitF sep fuel b

def pySplit (sep s : List Char) : List (List Char) := pySplitF sep (s.length + 1) s

def eqSep : List Char := [' ', '=', ' ']

def plusSep : List Char := [' ', '+', ' ']

/-- A Python `for` loop that appends one result per element and raises on the
first failing element: `none` as soon as any element fails, the whole list
otherwise. -/
def mapOpt {α β : Type} (f : α → Option β) : List α → Option (List β)
  | [] => some []
  | x :: xs =>
    match f x, mapOpt f xs with
    | some y, some ys => some (y :: ys)
    | _, _ => none

/-- Model of `Reaction.parse_equation`.  `equation_string.split(" = ")` must
produce exactly two parts (otherwise the tuple unpacking raises `ValueError`);
each side is split on `" + "` and every chunk must match the term regex and
carry a float-convertible coefficient, substrates negated.  Any failure raises
`ValueError` for the whole equation, modelled as `none` — no partial output
exists. -/
def parse_equation (s : String) : Option (List EquationTerm) :=
  match pySplit eqSep s.toList with
  | [substrates, products] =>
    match mapOpt (termParse true) (pySplit plusSep substrates),
          mapOpt (termParse false) (pySplit plusSep products) with
    | some l, some r => some (l ++ r)
    | _, _ => none
  | _ => none

/-! ## Data model (`src/metanetx/data.py`)

`annotation` fields (written `annot` here, a name the environment reserves) are
`defaultdict(list)` in the source: an insertion-ordered map from namespace to
the list of appended references.  Python objects carrying mutable state are
modelled by value, with the owning dict updated in place. -/

/-- Case-folding via `str.lower()`, modelled per character (ASCII-faithful). -/
def lowerStr (s : String) : String := String.mk (s.toList.map Char.toLower)

/-- Annotation map: `defaultdict(list)` where appending to a fresh namespace
creates it at the end, matching dict insertion order. -/
abbrev Annot := List (String × List String)

def annotAppend (ns ref : String) : Annot → Annot
  | [] => [(ns, [ref])]
  | (n, vs) :: rest =>
    if n = ns then (n, vs ++ [ref]) :: rest else (n, vs) :: annotAppend ns ref rest

structure Compartment where
  mnx_id : String
  name : String
  xref : String
  annot : Annot
deriving DecidableEq

/-- `Reaction` as built by `Reaction.__init__`; the constructor parses the
equation so construction fails (`ValueError`) exactly when the parse does.
`name` is `reaction_names.get(mnx_id)`, which may be `None`. -/
structure Reaction where
  mnx_id : String
  name : Option String
  equation_string : String
  equation_parsed : List EquationTerm
  ec : String
  annot : Annot
deriving DecidableEq

def mkReaction (mnx_id : String) (name : Option String) (equation_string ec : String) :
    Option Reaction :=
  match parse_equation equation_string with
  | none => none
  | some terms =>
    some { mnx_id := mnx_id, name := name, equation_string := equation_string,
           equation_parsed := terms, ec := ec, annot := [] }

structure Metabolite where
  mnx_id : String
  name : String
  formula : String
  annot : Annot
deriving DecidableEq

/-! ## Python dicts as insertion-ordered association lists

CPython dicts preserve insertion order; assigning to an existing key overwrites
the value in place without moving the key.  `dictLen` is `len`, `dictValues`
is `.values()` in order. -/

def dictInsert {α : Type} (k : String) (v : α) : List (String × α) → List (String × α)
  | [] => [(k, v)]
  | (k', v') :: rest =>
    if k' = k then (k', v) :: rest else (k', v') :: dictInsert k v rest

def dictGet {α : Type} (k : String) (d : List (String × α)) : Option α := List.lookup k d

def dictKeys {α : Type} (d : List (String × α)) : List String := d.map Prod.fst

def dictValues {α : Type} (d : List (String × α)) : List α := d.map Prod.snd

/-- In-place update of the value at key `k` (models mutating the object the
dict points at). -/
def dictModify {α : Type} (k : String) (f : α → α) : List (String × α) → List (String × α)
  | [] => []
  | (k', v) :: rest =>
    if k' = k then (k', f v) :: rest else (k', v) :: dictModify k f rest

/-- Exact-key index: case-folded key → owning entity, identified by its
canonical id (the dict stores an object reference; the id names that object).
Last write wins, as for any Python dict assignment. -/
abbrev KeyIndex := List (String × String)

def indexPut (k v : String) (idx : KeyIndex) : KeyIndex := dictInsert k v idx

def indexHasKey (k : String) (idx : KeyIndex) : Bool := (dictGet k idx).isSome

/-! ## Namespace normalisation (`src/metanetx/parser.py`, `_miriam_identifiers`)

Dictionary lookups that raise `KeyError`, and `identifier[0]` on an empty
identifier raising `IndexError`, are modelled as `none`. -/

def compartment_ns_map : List (String × String) :=
  [("bigg", "bigg.compartment"), ("cco", "cco"), ("go", "go"),
   ("name", "name"), ("seed", "seed")]

def reaction_ns_map : List (String × String) :=
  [("bigg", "bigg.reaction"), ("deprecated", "metanetx.reaction"),
   ("kegg", "kegg.reaction"), ("metacyc", "metacyc.reaction"),
   ("reactome", "reactome"), ("rhea", "rhea"),
   ("sabiork", "sabiork.reaction"), ("seed", "seed.reaction")]

def metabolite_ns_map : List (String × String) :=
  [("bigg", "bigg.metabolite"), ("deprecated", "metanetx.chemical"),
   ("envipath", "envipath"), ("hmdb", "hmdb"), ("lipidmaps", "lipidmaps"),
   ("metacyc", "metacyc.compound"), ("reactome", "reactome"),
   ("sabiork", "sabiork.compound"), ("seed", "seed.compound")]

def kegg_map : List (Char × String) :=
  [('C', "kegg.compound"), ('D', "kegg.drug"), ('E', "kegg.environ"),
   ('G', "kegg.glycan")]

def miriam_identifiers (type_ ns id : String) : Option (String × String) :=
  if type_ = "compartment" then
    (List.lookup ns compartment_ns_map).map (fun n => (n, id))
  else if type_ = "reaction" then
    (List.lookup ns reaction_ns_map).map (fun n => (n, id))
  else if type_ = "metabolite" then
    if ns = "kegg" then
      match id.toList.head? with
      | none => none
      | some c => (List.lookup c kegg_map).map (fun n => (n, id))
    else if ns = "slm" then some ("swisslipid", "SLM:" ++ id)
    else if ns = "chebi" then some (ns, "CHEBI:" ++ id)
    else (List.lookup ns metabolite_ns_map).map (fun n => (n, id))
  else none

/-! ## Ingestion (`src/metanetx/parser.py`, `load_metanetx_data`)

Rows model the already tab-split, non-comment lines of each table
(`_iterate_tsv` drops `#`-prefixed lines; a row with the wrong column count
would abort before the logic modelled here). -/

structure ReacRow where
  mnx_id : String
  equation : String
  ec : String
deriving DecidableEq

structure XrefRow where
  xref : String
  mnx_id : String
deriving DecidableEq

/-- `":" in xref`. -/
def hasColon (s : String) : Bool := s.toList.contains ':'

/-- `xref.split(":", 1)` when a colon is present: split at the first colon. -/
def splitFirstColon (s : List Char) : List Char × List Char :=
  match s with
  | [] => ([], [])
  | c :: rest =>
    if c = ':' then ([], rest)
    else
      let p := splitFirstColon rest
      (c :: p.1, p.2)

def xrefParts (s : String) : String × String :=
  let p := splitFirstColon s.toList
  (String.mk p.1, String.mk p.2)

/-- The reaction-table loop: look up the display name, construct the reaction
(parsing its equation), and on success install it and register canonical id,
truthy display name, and EC number (case-folded) in the exact-key index; on
`ValueError` count the row as filtered. -/
def loadReactionsAux (names : List (String × String)) :
    List (String × Reaction) → KeyIndex → Nat → List ReacRow →
    List (String × Reaction) × KeyIndex × Nat
  | reacs, idx, filtered, [] => (reacs, idx, filtered)
  | reacs, idx, filtered, row :: rest =>
    let name := List.lookup row.mnx_id names
    match mkReaction row.mnx_id name row.equation row.ec with
    | none => loadReactionsAux names reacs idx (filtered + 1) rest
    | some r =>
      let reacs' := dictInsert row.mnx_id r reacs
      let idx1 := indexPut (lowerStr row.mnx_id) row.mnx_id idx
      let idx2 := if name.getD "" ≠ "" then indexPut (lowerStr (name.getD "")) row.mnx_id idx1
                  else idx1
      let idx3 := indexPut (lowerStr row.ec) row.mnx_id idx2
      loadReactionsAux names reacs' idx3 filtered rest

def loadReactions (names : List (String × String)) (rows : List ReacRow) :
    List (String × Reaction) × KeyIndex × Nat :=
  loadReactionsAux names [] [] 0 rows

/-- The compartment cross-reference loop.  There is no `try` here: an unknown
namespace (`KeyError` from `_miriam_identifiers`) or an unknown owning id
(`KeyError` from `compartments[mnx_id]`) aborts ingestion, modelled `none`.
Returns the updated store and the xref counter. -/
def loadCompartmentXrefsAux :
    List (String × Compartment) → Nat → List XrefRow →
    Option (List (String × Compartment) × Nat)
  | comps, cnt, [] => some (comps, cnt)
  | comps, cnt, row :: rest =>
    if hasColon row.xref then
      let p := xrefParts row.xref
      match miriam_identifiers "compartment" p.1 p.2 with
      | none => none
      | some nr =>
        match dictGet row.mnx_id comps with
        | none => none
        | some _ =>
          loadCompartmentXrefsAux
            (dictModify row.mnx_id (fun c => { c with annot := annotAppend nr.1 nr.2 c.annot }) comps)
            (cnt + 1) rest
    else loadCompartmentXrefsAux comps cnt rest

def loadCompartmentXrefs (comps : List (String × Compartment)) (rows : List XrefRow) :
    Option (List (String × Compartment) × Nat) :=
  loadCompartmentXrefsAux comps 0 rows

/-- The guarded cross-reference loop shared verbatim (modulo entity type and
kind string) by the reaction and metabolite tables in the source.  The `try`
wraps only the owning-id lookup: an unknown id is counted and skipped, while
an unknown namespace in the `else` branch still raises (`none`).  State:
store, index, loaded counter, missing counter. -/
def loadXrefsGuardedAux {α : Type} (norm : String → String → Option (String × String))
    (upd : String → String → α → α) :
    List (String × α) → KeyIndex → Nat → Nat → List XrefRow →
    Option (List (String × α) × KeyIndex × Nat × Nat)
  | d, idx, cnt, miss, [] => some (d, idx, cnt, miss)
  | d, idx, cnt, miss, row :: rest =>
    if hasColon row.xref then
      match dictGet row.mnx_id d with
      | none => loadXrefsGuardedAux norm upd d idx cnt (miss + 1) rest
      | some _ =>
        let p := xrefParts row.xref
        match norm p.1 p.2 with
        | none => none
        | some nr =>
          loadXrefsGuardedAux norm upd
            (dictModify row.mnx_id (upd nr.1 nr.2) d)
            (indexPut (lowerStr nr.2) row.mnx_id idx) (cnt + 1) miss rest
    else loadXrefsGuardedAux norm upd d idx cnt miss rest

/-- The reaction cross-reference loop of `load_metanetx_data`. -/
def loadReactionXrefs (reacs : List (String × Reaction)) (rows : List XrefRow) :
    Option (List (String × Reaction) × KeyIndex × Nat × Nat) :=
  loadXrefsGuardedAux (miriam_identifiers "reaction")
    (fun ns ref r => { r with annot := annotAppend ns ref r.annot }) reacs [] 0 0 rows

/-- The metabolite cross-reference loop of `load_metanetx_data`. -/
def loadMetaboliteXrefs (mets : List (String × Metabolite)) (rows : List XrefRow) :
    Option (List (String × Metabolite) × KeyIndex × Nat × Nat) :=
  loadXrefsGuardedAux (miriam_identifiers "metabolite")
    (fun ns ref m => { m with annot := annotAppend ns ref m.annot }) mets [] 0 0 rows

/-! ## Fuzzy scoring (`src/metanetx/data.py`, `Reaction.match` and
`Metabolite.match`; `src/metanetx/resources.py`)

`fuzz.ratio` and `fuzz.partial_ratio` belong to the external `fuzzywuzzy`
library, not to this repository, so they are taken as parameters
(`ratio : String → String → Nat` on strings and
`pratio : String → Option String → Nat`, whose second argument may be the
`None` display name the library coerces).  Python's `max()` raises
`ValueError` on an empty sequence, modelled by `maxOpt`. -/

/-- `foldr max 0`: the maximum of a list of `Nat`s, `0` for `[]`. -/
def listMax (l : List Nat) : Nat := l.foldr max 0

/-- Python `max()` over a sequence of `Nat`s: `none` (raise) when empty. -/
def maxOpt : List Nat → Option Nat
  | [] => none
  | x :: xs => some (max x (listMax xs))

/-- The per-namespace inner maxima
`[max(fuzz.ratio(query, i) for i in db) for db in annotation.values()]`;
`none` as soon as one namespace has an empty reference list. -/
def innerMaxes (ratio : String → String → Nat) (q : String) :
    Annot → Option (List Nat)
  | [] => some []
  | (_, vs) :: rest =>
    match maxOpt (vs.map (fun i => ratio q i)), innerMaxes ratio q rest with
    | some m, some ms => some (m :: ms)
    | _, _ => none

/-- The annotation component of `Reaction.match`:
`max(max(...) for db in values) if self.annotation else 0`. -/
def annotComponent (ratio : String → String → Nat) (q : String) (a : Annot) : Option Nat :=
  if a.isEmpty then some 0
  else
    match innerMaxes ratio q a with
    | none => none
    | some ms => maxOpt ms

/-- `Reaction.match`: the maximum of the four similarity components.  The whole
list is built before the outer `max`, so an exception from the annotation
component propagates (`none`). -/
def reactionMatch (ratio : String → String → Nat) (pratio : String → Option String → Nat)
    (r : Reaction) (q : String) : Option Nat :=
  match annotComponent ratio q r.annot with
  | none => none
  | some a =>
    some (max (max (ratio q r.mnx_id) a) (max (pratio q r.name) (ratio q r.ec)))

/-- Substring test `needle in hay` on character lists. -/
def hasSub (needle : List Char) : List Char → Bool
  | [] => isPre needle []
  | c :: rest => isPre needle (c :: rest) || hasSub needle rest

/-- Python `a in b` for strings. -/
def pyIn (needle hay : String) : Bool := hasSub needle.toList hay.toList

/-- `Metabolite.match`: case-insensitive substring match on id or name. -/
def metaboliteMatch (m : Metabolite) (q : String) : Bool :=
  pyIn (lowerStr q) (lowerStr m.mnx_id) || pyIn (lowerStr q) (lowerStr m.name)

/-! ## Search resources (`src/metanetx/resources.py`)

`sorted(..., key=k, reverse=True)` is a stable sort: descending by key, ties
keeping original order.  Stable sorts are uniquely determined by that
specification, so the insertion sort below computes exactly Python's result:
an element is inserted after every already-placed element of greater or equal
key. -/

def insertDesc {α : Type} (key : α → Nat) (x : α) : List α → List α
  | [] => [x]
  | y :: rest => if key x ≤ key y then y :: insertDesc key x rest else x :: y :: rest

def sortDesc {α : Type} (key : α → Nat) (l : List α) : List α :=
  l.foldl (fun acc x => insertDesc key x acc) []

/-- The sort key of `ReactionResource.get`:
`max([fuzz.ratio(query, r.mnx_id), fuzz.partial_ratio(query, r.name),
fuzz.ratio(query, r.ec)])`.  Unlike `Reaction.match` it ignores annotations. -/
def reactionScoreKey (ratio : String → String → Nat)
    (pratio : String → Option String → Nat) (q : String) (r : Reaction) : Nat :=
  max (max (ratio q r.mnx_id) (pratio q r.name)) (ratio q r.ec)

/-- The ranking part of `ReactionResource.get`: all stored reactions sorted
descending by score, truncated to 30. -/
def searchReactions (ratio : String → String → Nat)
    (pratio : String → Option String → Nat)
    (reacs : List (String × Reaction)) (q : String) : List Reaction :=
  (sortDesc (reactionScoreKey ratio pratio q) (dictValues reacs)).take 30

/-- One entry of the reaction search response. -/
structure SearchResult where
  reaction : Reaction
  metabolites : List Metabolite
  compartments : List Compartment
deriving DecidableEq

/-- The dereferencing part of `ReactionResource.get`: for each ranked reaction
collect the unique metabolite and compartment ids of its parsed equation and
look each up with `data.metabolites[m]` / `data.compartments[m]` — a plain
dict indexing whose `KeyError` propagates (`none`).  Python iterates a `set`
here; its unspecified order is modelled as first-occurrence order. -/
def derefReaction (mets : List (String × Metabolite)) (comps : List (String × Compartment))
    (r : Reaction) : Option SearchResult :=
  match mapOpt (fun i => dictGet i mets)
          (r.equation_parsed.map (fun t => t.metabolite_id)).dedup,
        mapOpt (fun i => dictGet i comps)
          (r.equation_parsed.map (fun t => t.compartment_id)).dedup with
  | some ms, some cs => some { reaction := r, metabolites := ms, compartments := cs }
  | _, _ => none

/-- `ReactionResource.get`: rank, cap at 30, then dereference each result. -/
def reactionResourceGet (ratio : String → String → Nat)
    (pratio : String → Option String → Nat)
    (reacs : List (String × Reaction)) (mets : List (String × Metabolite))
    (comps : List (String × Compartment)) (q : String) : Option (List SearchResult) :=
  mapOpt (derefReaction mets comps) (searchReactions ratio pratio reacs q)

/-- `MetaboliteResource.get`: case-insensitive substring filter in store
order, truncated to 30; no scoring and no sorting. -/
def metaboliteResourceGet (mets : List (String × Metabolite)) (q : String) :
    List Metabolite :=
  ((dictValues mets).filter (fun m =>
    pyIn (lowerStr q) (lowerStr m.mnx_id) || pyIn (lowerStr q) (lowerStr m.name))).take 30

/-! ## Equation rendering (the round-trip side of claim C1)

A raw input term is a coefficient literal with metabolite and compartment
identifiers; rendering joins terms with `" + "` and the two sides with
`" = "`, exactly the grammar the spec describes. -/

structure RawTerm where
  coeff : List Char
  met : List Char
  comp : List Char

/-- A term the grammar admits: non-empty decimal coefficient literal (digits
and at most one dot, convertible by `float`), non-empty alphanumeric
metabolite and compartment identifiers. -/
def validRaw (t : RawTerm) : Prop :=
  t.coeff ≠ [] ∧ t.coeff.all isCoeffChar ∧ (parseCoeff t.coeff).isSome ∧
  t.met ≠ [] ∧ t.met.all Char.isAlphanum ∧ t.comp ≠ [] ∧ t.comp.all Char.isAlphanum

instance (t : RawTerm) : Decidable (validRaw t) := by
  unfold validRaw
  infer_instance

def renderTerm (t : RawTerm) : List Char := t.coeff ++ ' ' :: (t.met ++ '@' :: t.comp)

/-- Join chunks with a separator. -/
def joinSep (sep : List Char) : List (List Char) → List Char
  | [] => []
  | [x] => x
  | x :: y :: rest => x ++ sep ++ joinSep sep (y :: rest)

def renderEquation (subs prods : List RawTerm) : String :=
  String.mk (joinSep eqSep
    [joinSep plusSep (subs.map renderTerm), joinSep plusSep (prods.map renderTerm)])

/-- The decimal value of a raw term's coefficient literal. -/
def coeffVal (t : RawTerm) : ℚ := (parseCoeff t.coeff).getD 0

/-- The parsed term a raw term should round-trip to: identifiers unchanged,
coefficient negated on the substrate side. -/
def termVal (neg : Bool) (t : RawTerm) : EquationTerm :=
  { metabolite_id := String.mk t.met, compartment_id := String.mk t.comp,
    coefficient := if neg then -coeffVal t else coeffVal t }

/-! ## Lemmas about `pySplit` -/

theorem findSplit_cons (sep : List Char) (c : Char) (rest : List Char) :
    findSplit sep (c :: rest) =
      if isPre sep (c :: rest) then some ([], (c :: rest).drop sep.length)
      else
        match findSplit sep rest with
        | none => none
        | some (a, b) => some (c :: a, b) := rfl

theorem isPre_append (sep rest : List Char) : isPre sep (sep ++ rest) = true := by
  induction sep with
  | nil => rfl
  | cons a as ih => simp [isPre, ih]

theorem isPre_sep_false {c : Char} (hc : c ≠ ' ') (p : Char) (ps tail : List Char)
    (hmem : c ∉ p :: ps) :
    isPre [' ', c, ' '] (p :: (ps ++ ([' ', c, ' '] ++ tail))) = false := by
  cases ps with
  | nil => simp [isPre, hc]
  | cons q qs =>
    have hq : c ≠ q := fun h => hmem (by simp [h])
    simp [isPre, hq]

theorem findSplit_append {c : Char} (hc : c ≠ ' ') :
    ∀ (part rest : List Char), c ∉ part →
      findSplit [' ', c, ' '] (part ++ ([' ', c, ' '] ++ rest)) = some (part, rest) := by
  intro part
  induction part with
  | nil =>
    intro rest _
    show findSplit [' ', c, ' '] (' ' :: (c :: ' ' :: rest)) = some ([], rest)
    have hpre : isPre [' ', c, ' '] (' ' :: (c :: ' ' :: rest)) = true :=
      isPre_append [' ', c, ' '] rest
    rw [findSplit_cons, if_pos hpre]
    rfl
  | cons p ps ih =>
    intro rest hmem
    have hpre := isPre_sep_false hc p ps rest hmem
    have ihr := ih rest (fun h => hmem (List.mem_cons_of_mem _ h))
    rw [List.cons_append, findSplit_cons, if_neg (by rw [hpre]; exact Bool.false_ne_true), ihr]

theorem isPre_no_mem_false {c : Char} (x : Char) (xs : List Char) (hmem : c ∉ x :: xs) :
    isPre [' ', c, ' '] (x :: xs) = false := by
  cases xs with
  | nil => simp [isPre]
  | cons y ys =>
    have hy : c ≠ y := fun h => hmem (by simp [h])
    simp [isPre, hy]

theorem findSplit_none {c : Char} :
    ∀ s : List Char, c ∉ s → findSplit [' ', c, ' '] s = none := by
  intro s
  induction s with
  | nil => intro _; rfl
  | cons x xs ih =>
    intro hmem
    rw [findSplit_cons, if_neg (by rw [isPre_no_mem_false x xs hmem]; exact Bool.false_ne_true),
      ih (fun h => hmem (List.mem_cons_of_mem _ h))]

theorem pySplitF_succ (sep : List Char) (fuel : Nat) (s : List Char) :
    pySplitF sep (fuel + 1) s =
      match findSplit sep s with
      | none => [s]
      | some (a, b) => a :: pySplitF sep fuel b := rfl

theorem pySplitF_no {c : Char} (fuel : Nat) (s : List Char) (h : c ∉ s) :
    pySplitF [' ', c, ' '] fuel s = [s] := by
  cases fuel with
  | zero => rfl
  | succ n => rw [pySplitF_succ, findSplit_none s h]

theorem pySplitF_cons {c : Char} (hc : c ≠ ' ') (part rest : List Char) (fuel : Nat)
    (hp : c ∉ part) :
    pySplitF [' ', c, ' '] (fuel + 1) (part ++ ([' ', c, ' '] ++ rest)) =
      part :: pySplitF [' ', c, ' '] fuel rest := by
  rw [pySplitF_succ, findSplit_append hc part rest hp]

theorem pySplitF_joinSep {c : Char} (hc : c ≠ ' ') :
    ∀ (parts : List (List Char)) (fuel : Nat), parts ≠ [] →
      (∀ p ∈ parts, c ∉ p) → parts.length ≤ fuel →
      pySplitF [' ', c, ' '] fuel (joinSep [' ', c, ' '] parts) = parts
  | [], _, h, _, _ => absurd rfl h
  | [x], fuel, _, hcl, _ => by
    simpa [joinSep] using pySplitF_no fuel x (hcl x (by simp))
  | x :: y :: rest, fuel, _, hcl, hlen => by
    match fuel, hlen with
    | f + 1, hlen =>
      have hx : c ∉ x := hcl x (by simp)
      have step := pySplitF_cons hc x (joinSep [' ', c, ' '] (y :: rest)) f hx
      have ih := pySplitF_joinSep hc (y :: rest) f (by simp)
        (fun p hp => hcl p (List.mem_cons_of_mem _ hp)) (by simpa using Nat.lt_succ_iff.mp hlen)
      calc pySplitF [' ', c, ' '] (f + 1) (joinSep [' ', c, ' '] (x :: y :: rest))
          = pySplitF [' ', c, ' '] (f + 1) (x ++ ([' ', c, ' '] ++ joinSep [' ', c, ' '] (y :: rest))) := by
            simp [joinSep]
        _ = x :: pySplitF [' ', c, ' '] f (joinSep [' ', c, ' '] (y :: rest)) := step
        _ = x :: y :: rest := by rw [ih]

theorem length_le_joinSep (sep : List Char) (hs : sep ≠ []) :
    ∀ parts : List (List Char), parts.length ≤ (joinSep sep parts).length + 1
  | [] => by simp [joinSep]
  | [x] => by simp [joinSep]
  | x :: y :: rest => by
    have ih := length_le_joinSep sep hs (y :: rest)
    have h1 : 1 ≤ sep.length := List.length_pos.mpr hs
    simp only [joinSep, List.length_cons, List.length_append] at *
    omega

theorem pySplit_joinSep {c : Char} (hc : c ≠ ' ') (parts : List (List Char))
    (h0 : parts ≠ []) (hcl : ∀ p ∈ parts, c ∉ p) :
    pySplit [' ', c, ' '] (joinSep [' ', c, ' '] parts) = parts :=
  pySplitF_joinSep hc parts _ h0 hcl
    (by have := length_le_joinSep [' ', c, ' '] (by simp) parts; omega)

/-! ## Lemmas about the term regex on rendered terms -/

theorem takeWhile_all_append (p : Char → Bool) :
    ∀ (l : List Char) (c : Char) (r : List Char), l.all p → p c = false →
      (l ++ c :: r).takeWhile p = l ∧ (l ++ c :: r).dropWhile p = c :: r := by
  intro l
  induction l with
  | nil =>
    intro c r _ hc
    simp [List.takeWhile, List.dropWhile, hc]
  | cons a as ih =>
    intro c r hall hc
    simp only [List.all_cons, Bool.and_eq_true] at hall
    have ihr := ih c r hall.2 hc
    constructor
    · simp [List.takeWhile, hall.1, ihr.1]
    · simp [List.dropWhile, hall.1, ihr.2]

theorem getLast?_all_not_nl (l : List Char) (hne : l ≠ []) (hall : l.all Char.isAlphanum)
    (pre : List Char) : (pre ++ l).getLast? ≠ some '\n' := by
  rw [List.getLast?_append_of_ne_nil pre hne, List.getLast?_eq_getLast_of_ne_nil hne]
  intro h
  rw [Option.some.injEq] at h
  have hmem : l.getLast hne ∈ l := List.getLast_mem hne
  have halpha := List.all_eq_true.mp hall _ hmem
  rw [h] at halpha
  exact absurd halpha (by decide)

theorem stripNl_renderTerm (t : RawTerm) (hv : validRaw t) :
    stripNl (renderTerm t) = renderTerm t := by
  obtain ⟨-, -, -, -, -, hcne, hcall⟩ := hv
  have hshape : renderTerm t = (t.coeff ++ ' ' :: t.met ++ ['@']) ++ t.comp := by
    simp [renderTerm]
  rw [stripNl, if_neg]
  rw [hshape]
  exact getLast?_all_not_nl t.comp hcne hcall _

theorem matchTerm_render (t : RawTerm) (hv : validRaw t) :
    matchTerm (renderTerm t) = some (t.coeff, t.met, t.comp) := by
  have hstrip := stripNl_renderTerm t hv
  obtain ⟨hc0, hcall, hcs, hm0, hmall, hk0, hkall⟩ := hv
  have hmword : t.met.all isWordChar := by
    rw [List.all_eq_true] at hmall ⊢
    intro x hx
    simp [isWordChar, hmall x hx]
  have hkword : t.comp.all isWordChar := by
    rw [List.all_eq_true] at hkall ⊢
    intro x hx
    simp [isWordChar, hkall x hx]
  have h1 := takeWhile_all_append isCoeffChar t.coeff ' ' (t.met ++ '@' :: t.comp) hcall
    (by decide)
  have h2 := takeWhile_all_append isWordChar t.met '@' t.comp hmword (by decide)
  have hr : renderTerm t = t.coeff ++ ' ' :: (t.met ++ '@' :: t.comp) := rfl
  have hce : t.coeff.isEmpty = false := by simp [List.isEmpty_iff, hc0]
  have hme : t.met.isEmpty = false := by simp [List.isEmpty_iff, hm0]
  have hke : t.comp.isEmpty = false := by simp [List.isEmpty_iff, hk0]
  unfold matchTerm
  rw [hstrip, hr]
  simp [h1.1, h1.2, h2.1, h2.2, hce, hme, hke, hkword]

theorem termParse_render (neg : Bool) (t : RawTerm) (hv : validRaw t) :
    termParse neg (renderTerm t) = some (termVal neg t) := by
  obtain ⟨q, hq⟩ := Option.isSome_iff_exists.mp hv.2.2.1
  rw [termParse, matchTerm_render t hv]
  simp [hq, termVal, coeffVal]

/-! ## Lemmas about `mapOpt` -/

theorem mapOpt_eq_map {α β : Type} (f : α → Option β) (g : α → β) :
    ∀ l : List α, (∀ x ∈ l, f x = some (g x)) → mapOpt f l = some (l.map g) := by
  intro l
  induction l with
  | nil => intro _; rfl
  | cons x xs ih =>
    intro h
    rw [mapOpt, h x (by simp), ih (fun y hy => h y (List.mem_cons_of_mem _ hy))]
    rfl

theorem mapOpt_eq_none {α β : Type} (f : α → Option β) :
    ∀ l : List α, (∃ x ∈ l, f x = none) → mapOpt f l = none := by
  intro l
  induction l with
  | nil => intro ⟨x, hx, _⟩; exact absurd hx (List.not_mem_nil x)
  | cons y ys ih =>
    intro ⟨x, hx, hfx⟩
    rcases List.mem_cons.mp hx with h | h
    · subst h
      rw [mapOpt, hfx]
    · rw [mapOpt, ih ⟨x, h, hfx⟩]
      cases f y <;> rfl

theorem mapOpt_isSome {α β : Type} (f : α → Option β) :
    ∀ l : List α, (∀ x ∈ l, (f x).isSome) → (mapOpt f l).isSome := by
  intro l
  induction l with
  | nil => intro _; rfl
  | cons x xs ih =>
    intro h
    obtain ⟨y, hy⟩ := Option.isSome_iff_exists.mp (h x (by simp))
    obtain ⟨ys, hys⟩ := Option.isSome_iff_exists.mp (ih (fun z hz => h z (List.mem_cons_of_mem _ hz)))
    rw [mapOpt, hy, hys]
    rfl

/-! ## Cleanliness of rendered equations: neither `=` nor `+` occurs in a
rendered term, so Python's split inverts the rendering. -/

theorem not_mem_renderTerm {d : Char} (t : RawTerm) (hv : validRaw t)
    (h1 : isCoeffChar d = false) (h2 : d ≠ ' ') (h3 : d.isAlphanum = false) (h4 : d ≠ '@') :
    d ∉ renderTerm t := by
  obtain ⟨-, hcall, -, -, hmall, -, hkall⟩ := hv
  intro hmem
  rw [renderTerm] at hmem
  rcases List.mem_append.mp hmem with h | h
  · rw [List.all_eq_true] at hcall
    rw [hcall d h] at h1
    exact Bool.noConfusion h1
  · rcases List.mem_cons.mp h with h | h
    · exact h2 h
    · rcases List.mem_append.mp h with h | h
      · rw [List.all_eq_true] at hmall
        rw [hmall d h] at h3
        exact Bool.noConfusion h3
      · rcases List.mem_cons.mp h with h | h
        · exact h4 h
        · rw [List.all_eq_true] at hkall
          rw [hkall d h] at h3
          exact Bool.noConfusion h3

theorem not_mem_joinSep {d : Char} (sep : List Char) :
    ∀ parts : List (List Char), d ∉ sep → (∀ p ∈ parts, d ∉ p) →
      d ∉ joinSep sep parts
  | [], _, _ => by simp [joinSep]
  | [x], _, hp => by simpa [joinSep] using hp x (by simp)
  | x :: y :: rest, hs, hp => by
    have ih := not_mem_joinSep sep (y :: rest) hs
      (fun p hmem => hp p (List.mem_cons_of_mem _ hmem))
    intro hmem
    rw [joinSep] at hmem
    rcases List.mem_append.mp hmem with h | h
    · rcases List.mem_append.mp h with h | h
      · exact hp x (by simp) h
      · exact hs h
    · exact ih h

theorem mapOpt_map_eq {α β γ : Type} (f : β → Option γ) (r : α → β) (g : α → γ) :
    ∀ l : List α, (∀ x ∈ l, f (r x) = some (g x)) → mapOpt f (l.map r) = some (l.map g) := by
  intro l
  induction l with
  | nil => intro _; rfl
  | cons x xs ih =>
    intro h
    rw [List.map_cons, mapOpt, h x (by simp), ih (fun y hy => h y (List.mem_cons_of_mem _ hy))]
    rfl

theorem eqSep_def : eqSep = [' ', '=', ' '] := rfl

theorem plusSep_def : plusSep = [' ', '+', ' '] := rfl

/-- Claim C1: for every list of terms (each a non-negative decimal coefficient
with alphanumeric metabolite and compartment identifiers) rendered into the
equation grammar `lhs = rhs` with terms joined by `" + "`, `parse_equation`
recovers exactly the same terms in input order, with left-hand-side
coefficients negated and right-hand-side coefficients kept positive. -/
theorem claim_C1_equation_roundtrip (subs prods : List RawTerm)
    (h1 : subs ≠ []) (h2 : prods ≠ [])
    (hv : ∀ t ∈ subs ++ prods, validRaw t) :
    parse_equation (renderEquation subs prods) =
      some (subs.map (termVal true) ++ prods.map (termVal false)) := by
  have hvs : ∀ t ∈ subs, validRaw t := fun t ht => hv t (List.mem_append.mpr (Or.inl ht))
  have hvp : ∀ t ∈ prods, validRaw t := fun t ht => hv t (List.mem_append.mpr (Or.inr ht))
  have hcs_eq : ∀ p ∈ subs.map renderTerm, '=' ∉ p := by
    intro p hp
    obtain ⟨t, ht, rfl⟩ := List.mem_map.mp hp
    exact not_mem_renderTerm t (hvs t ht) (by decide) (by decide) (by decide) (by decide)
  have hcp_eq : ∀ p ∈ prods.map renderTerm, '=' ∉ p := by
    intro p hp
    obtain ⟨t, ht, rfl⟩ := List.mem_map.mp hp
    exact not_mem_renderTerm t (hvp t ht) (by decide) (by decide) (by decide) (by decide)
  have hcs_plus : ∀ p ∈ subs.map renderTerm, '+' ∉ p := by
    intro p hp
    obtain ⟨t, ht, rfl⟩ := List.mem_map.mp hp
    exact not_mem_renderTerm t (hvs t ht) (by decide) (by decide) (by decide) (by decide)
  have hcp_plus : ∀ p ∈ prods.map renderTerm, '+' ∉ p := by
    intro p hp
    obtain ⟨t, ht, rfl⟩ := List.mem_map.mp hp
    exact not_mem_renderTerm t (hvp t ht) (by decide) (by decide) (by decide) (by decide)
  have hLne : '=' ∉ joinSep plusSep (subs.map renderTerm) :=
    not_mem_joinSep plusSep (subs.map renderTerm) (by decide) hcs_eq
  have hRne : '=' ∉ joinSep plusSep (prods.map renderTerm) :=
    not_mem_joinSep plusSep (prods.map renderTerm) (by decide) hcp_eq
  have htop : pySplit eqSep
      (joinSep eqSep [joinSep plusSep (subs.map renderTerm),
                      joinSep plusSep (prods.map renderTerm)]) =
      [joinSep plusSep (subs.map renderTerm), joinSep plusSep (prods.map renderTerm)] := by
    rw [eqSep_def]
    exact pySplit_joinSep (by decide) _ (by simp)
      (by
        intro p hp
        rcases List.mem_cons.mp hp with h | h
        · rw [h]; exact hLne
        · rcases List.mem_cons.mp h with h | h
          · rw [h]; exact hRne
          · exact absurd h (List.not_mem_nil p))
  have hplusL : pySplit plusSep (joinSep plusSep (subs.map renderTerm)) =
      subs.map renderTerm := by
    rw [plusSep_def]
    exact pySplit_joinSep (by decide) _ (by simpa using h1) hcs_plus
  have hplusR : pySplit plusSep (joinSep plusSep (prods.map renderTerm)) =
      prods.map renderTerm := by
    rw [plusSep_def]
    exact pySplit_joinSep (by decide) _ (by simpa using h2) hcp_plus
  have hmapL : mapOpt (termParse true) (subs.map renderTerm) = some (subs.map (termVal true)) :=
    mapOpt_map_eq _ _ _ subs (fun t ht => termParse_render true t (hvs t ht))
  have hmapR : mapOpt (termParse false) (prods.map renderTerm) =
      some (prods.map (termVal false)) :=
    mapOpt_map_eq _ _ _ prods (fun t ht => termParse_render false t (hvp t ht))
  have htol : (renderEquation subs prods).toList =
      joinSep eqSep [joinSep plusSep (subs.map renderTerm),
                     joinSep plusSep (prods.map renderTerm)] := rfl
  rw [parse_equation, htol, htop]
  simp only [hplusL, hplusR, hmapL, hmapR]

/-- Witness for C1: the spec's concrete example, derived by applying the
round-trip theorem to the corresponding raw term lists. -/
theorem claim_C1_equation_roundtrip_witness :
    parse_equation "1 MNXM1@MNXC1 = 1 MNXM2@MNXC2" =
      some [{ metabolite_id := "MNXM1", compartment_id := "MNXC1", coefficient := -1 },
            { metabolite_id := "MNXM2", compartment_id := "MNXC2", coefficient := 1 }] := by
  have h := claim_C1_equation_roundtrip
    [{ coeff := ['1'], met := "MNXM1".toList, comp := "MNXC1".toList }]
    [{ coeff := ['1'], met := "MNXM2".toList, comp := "MNXC2".toList }]
    (List.cons_ne_nil _ _) (List.cons_ne_nil _ _) (by decide)
  have e1 : renderEquation
      [{ coeff := ['1'], met := "MNXM1".toList, comp := "MNXC1".toList }]
      [{ coeff := ['1'], met := "MNXM2".toList, comp := "MNXC2".toList }] =
      "1 MNXM1@MNXC1 = 1 MNXM2@MNXC2" := by decide
  have e2 : ([{ coeff := ['1'], met := "MNXM1".toList, comp := "MNXC1".toList }] :
        List RawTerm).map (termVal true) ++
      ([{ coeff := ['1'], met := "MNXM2".toList, comp := "MNXC2".toList }] :
        List RawTerm).map (termVal false) =
      [{ metabolite_id := "MNXM1", compartment_id := "MNXC1", coefficient := -1 },
       { metabolite_id := "MNXM2", compartment_id := "MNXC2", coefficient := 1 }] := by decide
  rw [e1, e2] at h
  exact h

theorem termParse_none_iff (b b' : Bool) (t : List Char) :
    termParse b t = none ↔ termParse b' t = none := by
  rw [termParse, termParse]
  cases hm : matchTerm t with
  | none => simp
  | some trip =>
    obtain ⟨c, m, k⟩ := trip
    cases hc : parseCoeff c <;> simp [hc]

theorem parse_equation_two (l r : List Char) (s : String)
    (hsplit : pySplit eqSep s.toList = [l, r]) :
    parse_equation s =
      match mapOpt (termParse true) (pySplit plusSep l),
            mapOpt (termParse false) (pySplit plusSep r) with
      | some a, some b => some (a ++ b)
      | _, _ => none := by
  rw [parse_equation, hsplit]

/-- Claim C2: when any single chunk of the equation fails the term shape (the
anchored regex together with `float` conversion of the coefficient literal),
the whole parse fails and no partial term list is produced — `parse_equation`
returns `none`, which carries no terms at all. -/
theorem claim_C2_parse_atomic (s : String) (l r : List Char)
    (hsplit : pySplit eqSep s.toList = [l, r])
    (hbad : ∃ t ∈ pySplit plusSep l ++ pySplit plusSep r, termParse false t = none) :
    parse_equation s = none := by
  rcases hbad with ⟨t, ht, hnone⟩
  rw [parse_equation_two l r s hsplit]
  rcases List.mem_append.mp ht with h | h
  · rw [mapOpt_eq_none _ _ ⟨t, h, (termParse_none_iff true false t).mpr hnone⟩]
  · rw [mapOpt_eq_none _ _ ⟨t, h, hnone⟩]
    cases mapOpt (termParse true) (pySplit plusSep l) <;> rfl

/-- Witness for C2: the spec's inexact-marker example `"(n)"` fails as one
term and poisons the whole equation. -/
theorem claim_C2_parse_atomic_witness :
    parse_equation "(n) MNXM1@MNXC1 = 1 MNXM2@MNXC2" = none := by
  apply claim_C2_parse_atomic _ "(n) MNXM1@MNXC1".toList "1 MNXM2@MNXC2".toList
  · decide
  · exact ⟨"(n) MNXM1@MNXC1".toList, by decide, by decide⟩

/-! ## Sign of parsed coefficients (claim C10) -/

theorem parseCoeff_nonneg (s : List Char) (q : ℚ) (h : parseCoeff s = some q) : 0 ≤ q := by
  rw [parseCoeff] at h
  split at h
  · split at h
    · rw [Option.some.injEq] at h
      rw [← h]
      exact Nat.cast_nonneg _
    · exact absurd h (Option.noConfusion)
  · split at h
    · rw [Option.some.injEq] at h
      rw [← h]
      exact div_nonneg (Nat.cast_nonneg _) (by positivity)
    · exact absurd h (Option.noConfusion)
  · exact absurd h (Option.noConfusion)

theorem termParse_unfold (neg : Bool) (t c m k : List Char)
    (hm : matchTerm t = some (c, m, k)) :
    termParse neg t =
      match parseCoeff c with
      | none => none
      | some q =>
        some { metabolite_id := String.mk m, compartment_id := String.mk k,
               coefficient := if neg then -q else q } := by
  rw [termParse, hm]

theorem termParse_sign (neg : Bool) (t : List Char) (et : EquationTerm)
    (h : termParse neg t = some et) :
    (neg = true → et.coefficient ≤ 0) ∧ (neg = false → 0 ≤ et.coefficient) := by
  cases hm : matchTerm t with
  | none => rw [termParse, hm] at h; exact absurd h (Option.noConfusion)
  | some trip =>
    obtain ⟨c, m, k⟩ := trip
    rw [termParse_unfold neg t c m k hm] at h
    cases hc : parseCoeff c with
    | none => rw [hc] at h; exact absurd h (Option.noConfusion)
    | some q =>
      rw [hc] at h
      simp only [Option.some.injEq] at h
      have hq := parseCoeff_nonneg c q hc
      cases neg with
      | true =>
        refine ⟨fun _ => ?_, fun hf => Bool.noConfusion hf⟩
        rw [← h]
        simpa using hq
      | false =>
        refine ⟨fun hf => Bool.noConfusion hf, fun _ => ?_⟩
        rw [← h]
        simpa using hq

theorem mapOpt_mem {α β : Type} (f : α → Option β) :
    ∀ (l : List α) (res : List β), mapOpt f l = some res →
      ∀ y ∈ res, ∃ x ∈ l, f x = some y := by
  intro l
  induction l with
  | nil =>
    intro res h y hy
    rw [mapOpt, Option.some.injEq] at h
    rw [← h] at hy
    exact absurd hy (List.not_mem_nil y)
  | cons x xs ih =>
    intro res h y hy
    rw [mapOpt] at h
    cases hfx : f x with
    | none => rw [hfx] at h; exact absurd h (Option.noConfusion)
    | some z =>
      rw [hfx] at h
      cases hrest : mapOpt f xs with
      | none => rw [hrest] at h; exact absurd h (Option.noConfusion)
      | some zs =>
        rw [hrest, Option.some.injEq] at h
        rw [← h] at hy
        rcases List.mem_cons.mp hy with hz | hz
        · exact ⟨x, by simp, hz ▸ hfx⟩
        · obtain ⟨w, hw, hfw⟩ := ih zs hrest y hz
          exact ⟨w, List.mem_cons_of_mem _ hw, hfw⟩

/-- Amended claim C10: every accepted equation's term list splits as substrate
terms followed by product terms, with substrate coefficients nonpositive and
product coefficients nonnegative.  (The original claim's "nonzero" fails: the
regex accepts the literal `0`, see the counterexample.) -/
theorem claim_C10_coefficient_signs (s : String) (ts : List EquationTerm)
    (h : parse_equation s = some ts) :
    ∃ l r, ts = l ++ r ∧ (∀ t ∈ l, t.coefficient ≤ 0) ∧ (∀ t ∈ r, 0 ≤ t.coefficient) := by
  rw [parse_equation] at h
  split at h
  · rename_i substrates products _
    cases hl : mapOpt (termParse true) (pySplit plusSep substrates) with
    | none => rw [hl] at h; exact absurd h (Option.noConfusion)
    | some lts =>
      cases hr : mapOpt (termParse false) (pySplit plusSep products) with
      | none => rw [hl, hr] at h; exact absurd h (Option.noConfusion)
      | some rts =>
        rw [hl, hr, Option.some.injEq] at h
        refine ⟨lts, rts, h.symm, ?_, ?_⟩
        · intro t ht
          obtain ⟨x, _, hfx⟩ := mapOpt_mem _ _ _ hl t ht
          exact (termParse_sign true x t hfx).1 rfl
        · intro t ht
          obtain ⟨x, _, hfx⟩ := mapOpt_mem _ _ _ hr t ht
          exact (termParse_sign false x t hfx).2 rfl
  · exact absurd h (Option.noConfusion)

/-- Witness for the amended C10 at a concrete accepted equation. -/
theorem claim_C10_coefficient_signs_witness :
    ∃ l r,
      ([{ metabolite_id := "A", compartment_id := "B", coefficient := 0 },
        { metabolite_id := "C", compartment_id := "D", coefficient := 1 }] :
          List EquationTerm) = l ++ r ∧
      (∀ t ∈ l, t.coefficient ≤ 0) ∧ (∀ t ∈ r, 0 ≤ t.coefficient) :=
  claim_C10_coefficient_signs "0 A@B = 1 C@D" _ (by decide)

/-- Counterexample to C10 as stated: the parser accepts a zero coefficient
(`"0 A@B = 1 C@D"`), so "every returned coefficient is nonzero" is false. -/
theorem claim_C10_counterexample :
    ¬ (∀ (s : String) (ts : List EquationTerm), parse_equation s = some ts →
        ∀ t ∈ ts, t.coefficient ≠ 0) := by
  intro h
  exact h "0 A@B = 1 C@D"
    [{ metabolite_id := "A", compartment_id := "B", coefficient := 0 },
     { metabolite_id := "C", compartment_id := "D", coefficient := 1 }]
    (by decide)
    { metabolite_id := "A", compartment_id := "B", coefficient := 0 }
    (by simp) (by decide)

/-- Claim C3: the metabolite/kegg branch of `_miriam_identifiers` dispatches on
the identifier's first character (`C`→kegg.compound, `D`→kegg.drug,
`E`→kegg.environ, `G`→kegg.glycan) and fails on an unrecognized first
character; the spec's concrete examples hold; and for any source namespace
with no mapping for the given entity kind the lookup fails (`KeyError`,
modelled `none`). -/
theorem claim_C3_normalize :
    (∀ (id : String) (c : Char), id.toList.head? = some c →
      ((c = 'C' → miriam_identifiers "metabolite" "kegg" id = some ("kegg.compound", id)) ∧
       (c = 'D' → miriam_identifiers "metabolite" "kegg" id = some ("kegg.drug", id)) ∧
       (c = 'E' → miriam_identifiers "metabolite" "kegg" id = some ("kegg.environ", id)) ∧
       (c = 'G' → miriam_identifiers "metabolite" "kegg" id = some ("kegg.glycan", id)) ∧
       (c ≠ 'C' → c ≠ 'D' → c ≠ 'E' → c ≠ 'G' →
         miriam_identifiers "metabolite" "kegg" id = none))) ∧
    miriam_identifiers "metabolite" "kegg" "C00031" = some ("kegg.compound", "C00031") ∧
    miriam_identifiers "metabolite" "chebi" "15377" = some ("chebi", "CHEBI:15377") ∧
    miriam_identifiers "metabolite" "bogus" "x" = none ∧
    (∀ ns id, List.lookup ns compartment_ns_map = none →
        miriam_identifiers "compartment" ns id = none) ∧
    (∀ ns id, List.lookup ns reaction_ns_map = none →
        miriam_identifiers "reaction" ns id = none) ∧
    (∀ ns id, ns ≠ "kegg" → ns ≠ "slm" → ns ≠ "chebi" →
        List.lookup ns metabolite_ns_map = none →
        miriam_identifiers "metabolite" ns id = none) := by
  refine ⟨?_, by decide, by decide, by decide, ?_, ?_, ?_⟩
  · intro id c hhead
    have hbase : miriam_identifiers "metabolite" "kegg" id =
        (List.lookup c kegg_map).map (fun n => (n, id)) := by
      rw [miriam_identifiers, if_neg (by decide), if_neg (by decide), if_pos rfl,
        if_pos rfl, hhead]
    refine ⟨?_, ?_, ?_, ?_, ?_⟩
    · intro h; subst h; rw [hbase]; rfl
    · intro h; subst h; rw [hbase]; rfl
    · intro h; subst h; rw [hbase]; rfl
    · intro h; subst h; rw [hbase]; rfl
    · intro h1 h2 h3 h4
      have hlk : List.lookup c kegg_map = none := by
        simp [kegg_map, List.lookup, beq_eq_false_iff_ne.mpr h1, beq_eq_false_iff_ne.mpr h2,
          beq_eq_false_iff_ne.mpr h3, beq_eq_false_iff_ne.mpr h4]
      rw [hbase, hlk]
      rfl
  · intro ns id hlk
    rw [miriam_identifiers, if_pos rfl, hlk]
    rfl
  · intro ns id hlk
    rw [miriam_identifiers, if_neg (by decide), if_pos rfl, hlk]
    rfl
  · intro ns id h1 h2 h3 hlk
    rw [miriam_identifiers, if_neg (by decide), if_neg (by decide), if_pos rfl,
      if_neg h1, if_neg h2, if_neg h3, hlk]
    rfl

/-- Witness for C3, instantiating each quantified conjunct at concrete
inputs. -/
theorem claim_C3_normalize_witness :
    miriam_identifiers "metabolite" "kegg" "D00001" = some ("kegg.drug", "D00001") ∧
    miriam_identifiers "metabolite" "kegg" "X123" = none ∧
    miriam_identifiers "compartment" "bogus" "x" = none ∧
    miriam_identifiers "reaction" "bogus" "x" = none := by
  refine ⟨?_, ?_, ?_, ?_⟩
  · exact (claim_C3_normalize.1 "D00001" 'D' rfl).2.1 rfl
  · exact (claim_C3_normalize.1 "X123" 'X' rfl).2.2.2.2 (by decide) (by decide)
      (by decide) (by decide)
  · exact claim_C3_normalize.2.2.2.2.1 "bogus" "x" (by decide)
  · exact claim_C3_normalize.2.2.2.2.2.1 "bogus" "x" (by decide)

/-! ## Lemmas about Python `max` and the annotation component (claim C4) -/

theorem maxOpt_eq_listMax : ∀ xs : List Nat, xs ≠ [] → maxOpt xs = some (listMax xs)
  | [], h => absurd rfl h
  | _ :: _, _ => rfl

theorem listMax_append (a b : List Nat) : listMax (a ++ b) = max (listMax a) (listMax b) := by
  induction a with
  | nil => simp [listMax]
  | cons x xs ih =>
    show max x (listMax (xs ++ b)) = max (max x (listMax xs)) (listMax b)
    rw [ih, Nat.max_assoc]

theorem listMax_join : ∀ groups : List (List Nat),
    listMax (groups.map listMax) = listMax groups.flatten
  | [] => rfl
  | g :: gs => by
    show max (listMax g) (listMax (gs.map listMax)) = listMax ((g :: gs).flatten)
    rw [List.flatten_cons, listMax_append, listMax_join gs]

theorem innerMaxes_eq (ratio : String → String → Nat) (q : String) :
    ∀ a : Annot, (∀ db ∈ a, db.2 ≠ []) →
      innerMaxes ratio q a =
        some (a.map (fun db => listMax (db.2.map (fun i => ratio q i)))) := by
  intro a
  induction a with
  | nil => intro _; rfl
  | cons db rest ih =>
    intro h
    obtain ⟨n, vs⟩ := db
    have hvs : vs ≠ [] := h (n, vs) (by simp)
    rw [innerMaxes, maxOpt_eq_listMax _ (by simpa using hvs),
      ih (fun d hd => h d (List.mem_cons_of_mem _ hd))]
    rfl

theorem annotComponent_eq (ratio : String → String → Nat) (q : String) (a : Annot)
    (h : ∀ db ∈ a, db.2 ≠ []) :
    annotComponent ratio q a =
      some (listMax ((a.map (fun db => db.2.map (fun i => ratio q i))).flatten)) := by
  rw [annotComponent]
  by_cases ha : a.isEmpty
  · rw [if_pos ha]
    have he : a = [] := List.isEmpty_iff.mp ha
    subst he
    rfl
  · rw [if_neg ha, innerMaxes_eq ratio q a h]
    have hne : a ≠ [] := fun hh => ha (by simp [hh])
    show maxOpt (a.map (fun db => listMax (db.2.map (fun i => ratio q i)))) = _
    rw [maxOpt_eq_listMax _ (by simpa using hne)]
    have hmm : a.map (fun db => listMax (db.2.map (fun i => ratio q i))) =
        (a.map (fun db => db.2.map (fun i => ratio q i))).map listMax := by
      rw [List.map_map]
      rfl
    rw [hmm, listMax_join]

/-- Claim C4: `Reaction.match` computes the maximum of whole-string similarity
on the canonical id, the maximum whole-string similarity over all annotation
values across all namespaces (0 when there are no annotations at all, with no
error raised), partial similarity on the display name, and whole-string
similarity on the EC number.  The external similarity functions are abstract
parameters.  The hypothesis that every present namespace carries at least one
reference holds for every annotation map the ingestion pipeline builds (it
only ever appends). -/
theorem claim_C4_reaction_score (ratio : String → String → Nat)
    (pratio : String → Option String → Nat) (r : Reaction) (q : String)
    (h : ∀ db ∈ r.annot, db.2 ≠ []) :
    reactionMatch ratio pratio r q =
      some (max (max (ratio q r.mnx_id)
                   (listMax ((r.annot.map (fun db => db.2.map (fun i => ratio q i))).flatten)))
              (max (pratio q r.name) (ratio q r.ec))) := by
  rw [reactionMatch, annotComponent_eq ratio q r.annot h]

/-- Witness for C4 at a concrete reaction with one annotation namespace. -/
theorem claim_C4_reaction_score_witness :
    reactionMatch (fun _ _ => 7) (fun _ _ => 5)
      { mnx_id := "R1", name := none, equation_string := "1 a@b = 1 c@d",
        equation_parsed := [], ec := "", annot := [("rhea", ["123"])] } "q" = some 7 := by
  rw [claim_C4_reaction_score (fun _ _ => 7) (fun _ _ => 5)
    { mnx_id := "R1", name := none, equation_string := "1 a@b = 1 c@d",
      equation_parsed := [], ec := "", annot := [("rhea", ["123"])] } "q" (by decide)]
  decide

/-! ## Dict lemmas (claims C5, C6) -/

theorem dictKeys_insert_not_mem {α : Type} (k : String) (v : α) :
    ∀ d : List (String × α), k ∉ dictKeys d →
      dictKeys (dictInsert k v d) = dictKeys d ++ [k] := by
  intro d
  induction d with
  | nil => intro _; rfl
  | cons e rest ih =>
    intro h
    obtain ⟨k', v'⟩ := e
    simp only [dictKeys, List.map_cons, List.mem_cons, not_or] at h
    rw [dictInsert, if_neg (fun hh => h.1 hh.symm)]
    show k' :: dictKeys (dictInsert k v rest) = (k' :: dictKeys rest) ++ [k]
    rw [ih h.2]
    rfl

theorem dictKeys_insert_mem {α : Type} (k : String) (v : α) :
    ∀ d : List (String × α), k ∈ dictKeys d →
      dictKeys (dictInsert k v d) = dictKeys d := by
  intro d
  induction d with
  | nil => intro h; exact absurd h (List.not_mem_nil k)
  | cons e rest ih =>
    intro h
    obtain ⟨k', v'⟩ := e
    by_cases hk : k' = k
    · rw [dictInsert, if_pos hk]
      rfl
    · simp only [dictKeys, List.map_cons, List.mem_cons] at h
      rcases h with h | h
      · exact absurd h.symm hk
      · rw [dictInsert, if_neg hk]
        show k' :: dictKeys (dictInsert k v rest) = k' :: dictKeys rest
        rw [ih h]

theorem dictKeys_length {α : Type} (d : List (String × α)) :
    (dictKeys d).length = d.length := List.length_map d Prod.fst

theorem dictInsert_length_not_mem {α : Type} (k : String) (v : α) (d : List (String × α))
    (h : k ∉ dictKeys d) : (dictInsert k v d).length = d.length + 1 := by
  have := congrArg List.length (dictKeys_insert_not_mem k v d h)
  rw [dictKeys_length, List.length_append, dictKeys_length] at this
  simpa using this

theorem dictKeys_nodup_insert {α : Type} (k : String) (v : α) (d : List (String × α))
    (h : (dictKeys d).Nodup) : (dictKeys (dictInsert k v d)).Nodup := by
  by_cases hk : k ∈ dictKeys d
  · rw [dictKeys_insert_mem k v d hk]
    exact h
  · rw [dictKeys_insert_not_mem k v d hk]
    rw [List.nodup_append]
    refine ⟨h, List.nodup_singleton k, ?_⟩
    intro a ha hb
    rw [List.mem_singleton] at hb
    subst hb
    exact hk ha

theorem dictGet_insert_self {α : Type} (k : String) (v : α) :
    ∀ d : List (String × α), dictGet k (dictInsert k v d) = some v := by
  intro d
  induction d with
  | nil => simp [dictGet, dictInsert, List.lookup]
  | cons e rest ih =>
    obtain ⟨k', v'⟩ := e
    by_cases h : k' = k
    · subst h
      rw [dictInsert, if_pos rfl]
      simp [dictGet, List.lookup]
    · rw [dictInsert, if_neg h]
      show dictGet k ((k', v') :: dictInsert k v rest) = some v
      simp only [dictGet, List.lookup, beq_eq_false_iff_ne.mpr (Ne.symm h)]
      exact ih

theorem dictGet_insert_other {α : Type} (k k' : String) (v : α) (hne : k ≠ k') :
    ∀ d : List (String × α), dictGet k (dictInsert k' v d) = dictGet k d := by
  intro d
  induction d with
  | nil =>
    simp [dictGet, dictInsert, List.lookup, beq_eq_false_iff_ne.mpr hne]
  | cons e rest ih =>
    obtain ⟨k'', v''⟩ := e
    by_cases h : k'' = k'
    · subst h
      rw [dictInsert, if_pos rfl]
      simp only [dictGet, List.lookup, beq_eq_false_iff_ne.mpr hne]
    · rw [dictInsert, if_neg h]
      show dictGet k ((k'', v'') :: dictInsert k' v rest) = dictGet k ((k'', v'') :: rest)
      by_cases hk : k == k''
      · simp only [dictGet, List.lookup, hk]
      · simp only [dictGet, List.lookup, hk]
        exact ih

theorem indexHasKey_put_self (k v : String) (idx : KeyIndex) :
    indexHasKey k (indexPut k v idx) = true := by
  rw [indexHasKey, indexPut, dictGet_insert_self]
  rfl

theorem indexHasKey_put_mono (k k' v : String) (idx : KeyIndex)
    (h : indexHasKey k idx = true) : indexHasKey k (indexPut k' v idx) = true := by
  by_cases hk : k = k'
  · subst hk
    exact indexHasKey_put_self k v idx
  · rw [indexHasKey, indexPut, dictGet_insert_other k k' v hk]
    exact h

/-! ## Reaction-table ingestion lemmas (claims C5, C6) -/

theorem loadReactionsAux_cons_none (names : List (String × String))
    (reacs : List (String × Reaction)) (idx : KeyIndex) (filtered : Nat)
    (row : ReacRow) (rest : List ReacRow)
    (hmk : mkReaction row.mnx_id (List.lookup row.mnx_id names) row.equation row.ec = none) :
    loadReactionsAux names reacs idx filtered (row :: rest) =
      loadReactionsAux names reacs idx (filtered + 1) rest := by
  simp only [loadReactionsAux, hmk]

theorem loadReactionsAux_cons_some (names : List (String × String))
    (reacs : List (String × Reaction)) (idx : KeyIndex) (filtered : Nat)
    (row : ReacRow) (rest : List ReacRow) (r : Reaction)
    (hmk : mkReaction row.mnx_id (List.lookup row.mnx_id names) row.equation row.ec = some r) :
    loadReactionsAux names reacs idx filtered (row :: rest) =
      loadReactionsAux names (dictInsert row.mnx_id r reacs)
        (indexPut (lowerStr row.ec) row.mnx_id
          (if (List.lookup row.mnx_id names).getD "" ≠ "" then
            indexPut (lowerStr ((List.lookup row.mnx_id names).getD "")) row.mnx_id
              (indexPut (lowerStr row.mnx_id) row.mnx_id idx)
          else indexPut (lowerStr row.mnx_id) row.mnx_id idx))
        filtered rest := by
  simp only [loadReactionsAux, hmk]

theorem loadReactionsAux_count (names : List (String × String)) :
    ∀ (rows : List ReacRow) (reacs : List (String × Reaction)) (idx : KeyIndex)
      (filtered : Nat),
      (∀ row ∈ rows, row.mnx_id ∉ dictKeys reacs) →
      (rows.map (fun r => r.mnx_id)).Nodup →
      (loadReactionsAux names reacs idx filtered rows).1.length +
          (loadReactionsAux names reacs idx filtered rows).2.2 =
        reacs.length + filtered + rows.length := by
  intro rows
  induction rows with
  | nil => intro reacs idx filtered _ _; simp [loadReactionsAux]
  | cons row rest ih =>
    intro reacs idx filtered hdisj hnodup
    rw [List.map_cons, List.nodup_cons] at hnodup
    cases hmk : mkReaction row.mnx_id (List.lookup row.mnx_id names) row.equation row.ec with
    | none =>
      rw [loadReactionsAux_cons_none names reacs idx filtered row rest hmk]
      have := ih reacs idx (filtered + 1)
        (fun q hq => hdisj q (List.mem_cons_of_mem _ hq)) hnodup.2
      simp only [List.length_cons]
      omega
    | some r =>
      rw [loadReactionsAux_cons_some names reacs idx filtered row rest r hmk]
      have hfresh : row.mnx_id ∉ dictKeys reacs := hdisj row (by simp)
      have hdisj' : ∀ q ∈ rest, q.mnx_id ∉ dictKeys (dictInsert row.mnx_id r reacs) := by
        intro q hq
        rw [dictKeys_insert_not_mem row.mnx_id r reacs hfresh]
        intro hmem
        rcases List.mem_append.mp hmem with h | h
        · exact hdisj q (List.mem_cons_of_mem _ hq) h
        · rcases List.mem_singleton.mp h with h
          exact hnodup.1 (h ▸ List.mem_map_of_mem (fun z => z.mnx_id) hq)
      have := ih (dictInsert row.mnx_id r reacs)
        (indexPut (lowerStr row.ec) row.mnx_id
          (if (List.lookup row.mnx_id names).getD "" ≠ "" then
            indexPut (lowerStr ((List.lookup row.mnx_id names).getD "")) row.mnx_id
              (indexPut (lowerStr row.mnx_id) row.mnx_id idx)
          else indexPut (lowerStr row.mnx_id) row.mnx_id idx))
        filtered hdisj' hnodup.2
      rw [dictInsert_length_not_mem row.mnx_id r reacs hfresh] at this
      simp only [List.length_cons]
      omega

theorem loadReactionsAux_nodup (names : List (String × String)) :
    ∀ (rows : List ReacRow) (reacs : List (String × Reaction)) (idx : KeyIndex)
      (filtered : Nat), (dictKeys reacs).Nodup →
      (dictKeys (loadReactionsAux names reacs idx filtered rows).1).Nodup := by
  intro rows
  induction rows with
  | nil => intro reacs idx filtered h; exact h
  | cons row rest ih =>
    intro reacs idx filtered h
    cases hmk : mkReaction row.mnx_id (List.lookup row.mnx_id names) row.equation row.ec with
    | none =>
      rw [loadReactionsAux_cons_none names reacs idx filtered row rest hmk]
      exact ih reacs idx (filtered + 1) h
    | some r =>
      rw [loadReactionsAux_cons_some names reacs idx filtered row rest r hmk]
      exact ih _ _ filtered (dictKeys_nodup_insert row.mnx_id r reacs h)

theorem loadReactionsAux_hasKey_mono (names : List (String × String)) :
    ∀ (rows : List ReacRow) (reacs : List (String × Reaction)) (idx : KeyIndex)
      (filtered : Nat) (k : String), indexHasKey k idx = true →
      indexHasKey k (loadReactionsAux names reacs idx filtered rows).2.1 = true := by
  intro rows
  induction rows with
  | nil => intro reacs idx filtered k h; exact h
  | cons row rest ih =>
    intro reacs idx filtered k h
    cases hmk : mkReaction row.mnx_id (List.lookup row.mnx_id names) row.equation row.ec with
    | none =>
      rw [loadReactionsAux_cons_none names reacs idx filtered row rest hmk]
      exact ih reacs idx (filtered + 1) k h
    | some r =>
      rw [loadReactionsAux_cons_some names reacs idx filtered row rest r hmk]
      apply ih
      apply indexHasKey_put_mono
      by_cases hn : (List.lookup row.mnx_id names).getD "" ≠ ""
      · rw [if_pos hn]
        exact indexHasKey_put_mono _ _ _ _ (indexHasKey_put_mono _ _ _ _ h)
      · rw [if_neg hn]
        exact indexHasKey_put_mono _ _ _ _ h

/-- Amended claim C5: provided the non-comment reaction rows carry pairwise
distinct canonical ids, the number of installed reactions plus the
filtered-row counter equals the number of rows; installed canonical ids are
always unique (the store is keyed by id).  Without the distinctness
hypothesis the identity fails, because a duplicate id overwrites its earlier
row (see the counterexample). -/
theorem claim_C5_reaction_count (names : List (String × String)) (rows : List ReacRow)
    (hnodup : (rows.map (fun r => r.mnx_id)).Nodup) :
    (loadReactions names rows).1.length + (loadReactions names rows).2.2 = rows.length ∧
    (dictKeys (loadReactions names rows).1).Nodup := by
  constructor
  · have := loadReactionsAux_count names rows [] [] 0 (by simp [dictKeys]) hnodup
    simpa [loadReactions] using this
  · exact loadReactionsAux_nodup names rows [] [] 0 (by simp [dictKeys])

/-- Witness for C5: two distinct rows, one of which is filtered for its
inexact `(n)` coefficient. -/
theorem claim_C5_reaction_count_witness :
    (loadReactions [] [{ mnx_id := "R1", equation := "1 a@b = 1 c@d", ec := "" },
                       { mnx_id := "R2", equation := "(n) x@y = 1 z@w", ec := "" }]).1.length +
      (loadReactions [] [{ mnx_id := "R1", equation := "1 a@b = 1 c@d", ec := "" },
                         { mnx_id := "R2", equation := "(n) x@y = 1 z@w", ec := "" }]).2.2 = 2 ∧
    (dictKeys (loadReactions [] [{ mnx_id := "R1", equation := "1 a@b = 1 c@d", ec := "" },
                                 { mnx_id := "R2", equation := "(n) x@y = 1 z@w", ec := "" }]).1).Nodup :=
  claim_C5_reaction_count []
    [{ mnx_id := "R1", equation := "1 a@b = 1 c@d", ec := "" },
     { mnx_id := "R2", equation := "(n) x@y = 1 z@w", ec := "" }] (by decide)

/-- Counterexample to C5 as stated: two rows sharing the id `R1` both parse,
but the dict keeps one entry and nothing is counted as filtered, so
`installed + filtered = 1 ≠ 2`. -/
theorem claim_C5_counterexample :
    ¬ (∀ (names : List (String × String)) (rows : List ReacRow),
        (loadReactions names rows).1.length + (loadReactions names rows).2.2 =
          rows.length) := by
  intro h
  exact absurd
    (h [] [{ mnx_id := "R1", equation := "1 a@b = 1 c@d", ec := "" },
           { mnx_id := "R1", equation := "1 a@b = 1 c@d", ec := "" }])
    (by decide)

/-- Amended claim C6: for every successfully parsed reaction row, the
case-folded canonical id and the case-folded EC number are registered in the
exact-key index unconditionally — an empty EC number becomes the empty-string
key (see the counterexample) — while the display name is registered only when
it is truthy (present and non-empty). -/
theorem claim_C6_index_registration (names : List (String × String)) (rows : List ReacRow)
    (row : ReacRow) (hmem : row ∈ rows) (r : Reaction)
    (hmk : mkReaction row.mnx_id (List.lookup row.mnx_id names) row.equation row.ec = some r) :
    indexHasKey (lowerStr row.mnx_id) (loadReactions names rows).2.1 = true ∧
    indexHasKey (lowerStr row.ec) (loadReactions names rows).2.1 = true ∧
    ((List.lookup row.mnx_id names).getD "" ≠ "" →
      indexHasKey (lowerStr ((List.lookup row.mnx_id names).getD ""))
        (loadReactions names rows).2.1 = true) := by
  rw [loadReactions]
  generalize hreacs : ([] : List (String × Reaction)) = reacs0
  generalize hidx : ([] : KeyIndex) = idx0
  generalize hfil : 0 = fil0
  clear hreacs hidx hfil
  induction rows generalizing reacs0 idx0 fil0 with
  | nil => exact absurd hmem (List.not_mem_nil row)
  | cons row' rest ih =>
    rcases List.mem_cons.mp hmem with heq | hmem'
    · subst heq
      rw [loadReactionsAux_cons_some names reacs0 idx0 fil0 row rest r hmk]
      refine ⟨?_, ?_, ?_⟩
      · apply loadReactionsAux_hasKey_mono
        apply indexHasKey_put_mono
        by_cases hn : (List.lookup row.mnx_id names).getD "" ≠ ""
        · rw [if_pos hn]
          exact indexHasKey_put_mono _ _ _ _ (indexHasKey_put_self _ _ _)
        · rw [if_neg hn]
          exact indexHasKey_put_self _ _ _
      · apply loadReactionsAux_hasKey_mono
        exact indexHasKey_put_self _ _ _
      · intro hn
        apply loadReactionsAux_hasKey_mono
        apply indexHasKey_put_mono
        rw [if_pos hn]
        exact indexHasKey_put_self _ _ _
    · cases hmk' : mkReaction row'.mnx_id (List.lookup row'.mnx_id names)
          row'.equation row'.ec with
      | none =>
        rw [loadReactionsAux_cons_none names reacs0 idx0 fil0 row' rest hmk']
        exact ih hmem' _ _ _
      | some r' =>
        rw [loadReactionsAux_cons_some names reacs0 idx0 fil0 row' rest r' hmk']
        exact ih hmem' _ _ _

/-- Witness for the amended C6. -/
theorem claim_C6_index_registration_witness :
    indexHasKey (lowerStr "R1")
      (loadReactions [("R1", "Alpha")]
        [{ mnx_id := "R1", equation := "1 a@b = 1 c@d", ec := "1.2.3.4" }]).2.1 = true ∧
    indexHasKey (lowerStr "1.2.3.4")
      (loadReactions [("R1", "Alpha")]
        [{ mnx_id := "R1", equation := "1 a@b = 1 c@d", ec := "1.2.3.4" }]).2.1 = true ∧
    ((List.lookup "R1" [("R1", "Alpha")]).getD "" ≠ "" →
      indexHasKey (lowerStr ((List.lookup "R1" [("R1", "Alpha")]).getD ""))
        (loadReactions [("R1", "Alpha")]
          [{ mnx_id := "R1", equation := "1 a@b = 1 c@d", ec := "1.2.3.4" }]).2.1 = true) := by
  have h := claim_C6_index_registration [("R1", "Alpha")]
    [{ mnx_id := "R1", equation := "1 a@b = 1 c@d", ec := "1.2.3.4" }]
    { mnx_id := "R1", equation := "1 a@b = 1 c@d", ec := "1.2.3.4" }
    (by simp)
    { mnx_id := "R1", name := some "Alpha", equation_string := "1 a@b = 1 c@d",
      equation_parsed := [{ metabolite_id := "a", compartment_id := "b", coefficient := -1 },
                          { metabolite_id := "c", compartment_id := "d", coefficient := 1 }],
      ec := "1.2.3.4", annot := [] }
    (by decide)
  exact h

/-- Counterexample to C6 as stated: a row with an empty EC number still
registers the empty string as an index key, contradicting "an empty EC number
string never becomes an index key". -/
theorem claim_C6_counterexample :
    indexHasKey ""
      (loadReactions [] [{ mnx_id := "R1", equation := "1 a@b = 1 c@d", ec := "" }]).2.1 =
      true := by
  decide

/-! ## Cross-reference ingestion lemmas (claim C7) -/

theorem dictGet_modify_same {α : Type} (k : String) (f : α → α) :
    ∀ d : List (String × α), dictGet k (dictModify k f d) = (dictGet k d).map f := by
  intro d
  induction d with
  | nil => rfl
  | cons e rest ih =>
    obtain ⟨k', v⟩ := e
    by_cases h : k' = k
    · subst h
      rw [dictModify, if_pos rfl]
      simp [dictGet, List.lookup]
    · rw [dictModify, if_neg h]
      show dictGet k ((k', v) :: dictModify k f rest) = _
      simp only [dictGet, List.lookup, beq_eq_false_iff_ne.mpr (Ne.symm h)]
      exact ih

theorem dictGet_modify_other {α : Type} (k k' : String) (f : α → α) (hne : k ≠ k') :
    ∀ d : List (String × α), dictGet k (dictModify k' f d) = dictGet k d := by
  intro d
  induction d with
  | nil => rfl
  | cons e rest ih =>
    obtain ⟨k'', v⟩ := e
    by_cases h : k'' = k'
    · subst h
      rw [dictModify, if_pos rfl]
      simp only [dictGet, List.lookup, beq_eq_false_iff_ne.mpr hne]
    · rw [dictModify, if_neg h]
      show dictGet k ((k'', v) :: dictModify k' f rest) = dictGet k ((k'', v) :: rest)
      by_cases hk : k == k''
      · simp only [dictGet, List.lookup, hk]
      · simp only [dictGet, List.lookup, hk]
        exact ih

theorem dictGet_modify_isNone {α : Type} (k k' : String) (f : α → α)
    (d : List (String × α)) :
    (dictGet k (dictModify k' f d)).isNone = (dictGet k d).isNone := by
  by_cases h : k = k'
  · subst h
    rw [dictGet_modify_same]
    cases dictGet k d <;> rfl
  · rw [dictGet_modify_other k k' f h]

theorem dictGet_modify_isSome {α : Type} (k k' : String) (f : α → α)
    (d : List (String × α)) :
    (dictGet k (dictModify k' f d)).isSome = (dictGet k d).isSome := by
  by_cases h : k = k'
  · subst h
    rw [dictGet_modify_same]
    cases dictGet k d <;> rfl
  · rw [dictGet_modify_other k k' f h]

theorem loadXGA_cons_nocolon {α : Type} (norm : String → String → Option (String × String))
    (upd : String → String → α → α) (d : List (String × α)) (idx : KeyIndex)
    (cnt miss : Nat) (row : XrefRow) (rest : List XrefRow)
    (h : hasColon row.xref = false) :
    loadXrefsGuardedAux norm upd d idx cnt miss (row :: rest) =
      loadXrefsGuardedAux norm upd d idx cnt miss rest := by
  simp only [loadXrefsGuardedAux, h, Bool.false_eq_true, if_false]

theorem loadXGA_cons_miss {α : Type} (norm : String → String → Option (String × String))
    (upd : String → String → α → α) (d : List (String × α)) (idx : KeyIndex)
    (cnt miss : Nat) (row : XrefRow) (rest : List XrefRow)
    (hcol : hasColon row.xref = true) (hget : dictGet row.mnx_id d = none) :
    loadXrefsGuardedAux norm upd d idx cnt miss (row :: rest) =
      loadXrefsGuardedAux norm upd d idx cnt (miss + 1) rest := by
  simp only [loadXrefsGuardedAux, hcol, if_true, hget]

theorem loadXGA_cons_found {α : Type} (norm : String → String → Option (String × String))
    (upd : String → String → α → α) (d : List (String × α)) (idx : KeyIndex)
    (cnt miss : Nat) (row : XrefRow) (rest : List XrefRow)
    (hcol : hasColon row.xref = true) (v : α) (hget : dictGet row.mnx_id d = some v)
    (nr : String × String)
    (hnorm : norm (xrefParts row.xref).1 (xrefParts row.xref).2 = some nr) :
    loadXrefsGuardedAux norm upd d idx cnt miss (row :: rest) =
      loadXrefsGuardedAux norm upd (dictModify row.mnx_id (upd nr.1 nr.2) d)
        (indexPut (lowerStr nr.2) row.mnx_id idx) (cnt + 1) miss rest := by
  simp only [loadXrefsGuardedAux, hcol, if_true, hget, hnorm]

theorem loadXrefsGuardedAux_ok {α : Type} (norm : String → String → Option (String × String))
    (upd : String → String → α → α) :
    ∀ (rows : List XrefRow) (d : List (String × α)) (idx : KeyIndex) (cnt miss : Nat),
      (∀ row ∈ rows, hasColon row.xref = true → (dictGet row.mnx_id d).isSome = true →
        (norm (xrefParts row.xref).1 (xrefParts row.xref).2).isSome = true) →
      ∃ st : List (String × α) × KeyIndex × Nat × Nat,
        loadXrefsGuardedAux norm upd d idx cnt miss rows = some st ∧
        st.2.2.2 = miss + (rows.filter
          (fun row => hasColon row.xref && (dictGet row.mnx_id d).isNone)).length := by
  intro rows
  induction rows with
  | nil =>
    intro d idx cnt miss _
    exact ⟨(d, idx, cnt, miss), rfl, by simp⟩
  | cons row rest ih =>
    intro d idx cnt miss hgood
    by_cases hcol : hasColon row.xref = true
    · cases hget : dictGet row.mnx_id d with
      | none =>
        rw [loadXGA_cons_miss norm upd d idx cnt miss row rest hcol hget]
        obtain ⟨st, hst, hmiss⟩ := ih d idx cnt (miss + 1)
          (fun q hq => hgood q (List.mem_cons_of_mem _ hq))
        refine ⟨st, hst, ?_⟩
        rw [hmiss]
        have hpred : (hasColon row.xref && (dictGet row.mnx_id d).isNone) = true := by
          rw [hcol, hget]
          rfl
        rw [List.filter_cons, if_pos hpred, List.length_cons]
        omega
      | some v =>
        have hnorm := hgood row (by simp) hcol (by rw [hget]; rfl)
        obtain ⟨nr, hnr⟩ := Option.isSome_iff_exists.mp hnorm
        rw [loadXGA_cons_found norm upd d idx cnt miss row rest hcol v hget nr hnr]
        obtain ⟨st, hst, hmiss⟩ := ih (dictModify row.mnx_id (upd nr.1 nr.2) d)
          (indexPut (lowerStr nr.2) row.mnx_id idx) (cnt + 1) miss
          (fun q hq hq1 hq2 => by
            apply hgood q (List.mem_cons_of_mem _ hq) hq1
            rw [← dictGet_modify_isSome q.mnx_id row.mnx_id (upd nr.1 nr.2) d]
            exact hq2)
        refine ⟨st, hst, ?_⟩
        rw [hmiss]
        have hpred : (hasColon row.xref && (dictGet row.mnx_id d).isNone) = false := by
          rw [hcol, hget]
          rfl
        rw [List.filter_cons, if_neg (by rw [hpred]; exact Bool.false_ne_true)]
        have hfilter_eq : rest.filter
            (fun q => hasColon q.xref &&
              (dictGet q.mnx_id (dictModify row.mnx_id (upd nr.1 nr.2) d)).isNone) =
            rest.filter (fun q => hasColon q.xref && (dictGet q.mnx_id d).isNone) := by
          apply List.filter_congr
          intro q _
          rw [dictGet_modify_isNone]
        rw [hfilter_eq]
    · have hcol' : hasColon row.xref = false := by
        cases h : hasColon row.xref
        · rfl
        · exact absurd h hcol
      rw [loadXGA_cons_nocolon norm upd d idx cnt miss row rest hcol']
      obtain ⟨st, hst, hmiss⟩ := ih d idx cnt miss
        (fun q hq => hgood q (List.mem_cons_of_mem _ hq))
      refine ⟨st, hst, ?_⟩
      rw [hmiss]
      rw [List.filter_cons, if_neg (by rw [hcol']; simp)]

/-- Amended claim C7: for the reaction and metabolite cross-reference tables,
every row whose owning-entity id does not resolve is dropped and counted in
the missing-reference counter, and ingestion continues (never aborts for such
a row; the hypothesis only constrains rows whose id does resolve, whose
unknown namespaces would abort).  The compartment cross-reference loop has no
such guard: a dangling row raises an uncaught `KeyError` and aborts — see the
counterexample. -/
theorem claim_C7_dangling_xrefs :
    (∀ (reacs : List (String × Reaction)) (rows : List XrefRow),
      (∀ row ∈ rows, hasColon row.xref = true → (dictGet row.mnx_id reacs).isSome = true →
        (miriam_identifiers "reaction"
          (xrefParts row.xref).1 (xrefParts row.xref).2).isSome = true) →
      ∃ st, loadReactionXrefs reacs rows = some st ∧
        st.2.2.2 = (rows.filter
          (fun row => hasColon row.xref && (dictGet row.mnx_id reacs).isNone)).length) ∧
    (∀ (mets : List (String × Metabolite)) (rows : List XrefRow),
      (∀ row ∈ rows, hasColon row.xref = true → (dictGet row.mnx_id mets).isSome = true →
        (miriam_identifiers "metabolite"
          (xrefParts row.xref).1 (xrefParts row.xref).2).isSome = true) →
      ∃ st, loadMetaboliteXrefs mets rows = some st ∧
        st.2.2.2 = (rows.filter
          (fun row => hasColon row.xref && (dictGet row.mnx_id mets).isNone)).length) := by
  constructor
  · intro reacs rows hgood
    have h := loadXrefsGuardedAux_ok (miriam_identifiers "reaction")
      (fun ns ref r => { r with annot := annotAppend ns ref r.annot }) rows reacs [] 0 0 hgood
    simpa [loadReactionXrefs] using h
  · intro mets rows hgood
    have h := loadXrefsGuardedAux_ok (miriam_identifiers "metabolite")
      (fun ns ref m => { m with annot := annotAppend ns ref m.annot }) rows mets [] 0 0 hgood
    simpa [loadMetaboliteXrefs] using h

/-- Witness for the amended C7: a store with one reaction and one dangling
cross-reference row; processing succeeds and counts one missing reference. -/
theorem claim_C7_dangling_xrefs_witness :
    ∃ st, loadReactionXrefs
        (loadReactions [] [{ mnx_id := "R1", equation := "1 a@b = 1 c@d", ec := "" }]).1
        [{ xref := "rhea:123", mnx_id := "RX" }] = some st ∧
      st.2.2.2 = ([({ xref := "rhea:123", mnx_id := "RX" } : XrefRow)].filter
        (fun row => hasColon row.xref &&
          (dictGet row.mnx_id
            (loadReactions []
              [{ mnx_id := "R1", equation := "1 a@b = 1 c@d", ec := "" }]).1).isNone)).length :=
  claim_C7_dangling_xrefs.1
    (loadReactions [] [{ mnx_id := "R1", equation := "1 a@b = 1 c@d", ec := "" }]).1
    [{ xref := "rhea:123", mnx_id := "RX" }] (by decide)

/-- Counterexample to C7 as stated: the compartment cross-reference loop
aborts (uncaught `KeyError`, modelled `none`) on a row whose owning
compartment id is unknown, instead of dropping and counting it. -/
theorem claim_C7_counterexample :
    loadCompartmentXrefs [] [{ xref := "bigg:c", mnx_id := "MNXC99" }] = none := by
  decide

/-! ## Stable descending sort lemmas (claims C8, C9) -/

theorem mem_insertDesc {α : Type} (key : α → Nat) (x : α) :
    ∀ (l : List α) (y : α), y ∈ insertDesc key x l ↔ y = x ∨ y ∈ l := by
  intro l
  induction l with
  | nil => intro y; simp [insertDesc]
  | cons z rest ih =>
    intro y
    rw [insertDesc]
    by_cases h : key x ≤ key z
    · rw [if_pos h]
      rw [List.mem_cons, ih y, List.mem_cons]
      tauto
    · rw [if_neg h]
      rw [List.mem_cons, List.mem_cons]

theorem mem_foldl_insertDesc {α : Type} (key : α → Nat) :
    ∀ (l acc : List α) (y : α),
      y ∈ l.foldl (fun acc x => insertDesc key x acc) acc ↔ y ∈ acc ∨ y ∈ l := by
  intro l
  induction l with
  | nil => intro acc y; simp
  | cons x xs ih =>
    intro acc y
    rw [List.foldl_cons, ih (insertDesc key x acc) y, mem_insertDesc, List.mem_cons]
    tauto

theorem mem_sortDesc {α : Type} (key : α → Nat) (l : List α) (y : α) :
    y ∈ sortDesc key l ↔ y ∈ l := by
  rw [sortDesc, mem_foldl_insertDesc]
  simp

theorem sorted_insertDesc {α : Type} (key : α → Nat) (x : α) :
    ∀ l : List α, List.Pairwise (fun a b => key b ≤ key a) l →
      List.Pairwise (fun a b => key b ≤ key a) (insertDesc key x l) := by
  intro l
  induction l with
  | nil => intro _; simp [insertDesc]
  | cons z rest ih =>
    intro h
    rw [List.pairwise_cons] at h
    rw [insertDesc]
    by_cases hle : key x ≤ key z
    · rw [if_pos hle]
      rw [List.pairwise_cons]
      constructor
      · intro y hy
        rcases (mem_insertDesc key x rest y).mp hy with hy | hy
        · rw [hy]; exact hle
        · exact h.1 y hy
      · exact ih h.2
    · rw [if_neg hle]
      rw [List.pairwise_cons]
      constructor
      · intro y hy
        rcases List.mem_cons.mp hy with hy | hy
        · rw [hy]; exact Nat.le_of_lt (Nat.lt_of_not_le hle)
        · exact Nat.le_trans (h.1 y hy) (Nat.le_of_lt (Nat.lt_of_not_le hle))
      · exact List.pairwise_cons.mpr h

theorem sorted_foldl_insertDesc {α : Type} (key : α → Nat) :
    ∀ (l acc : List α), List.Pairwise (fun a b => key b ≤ key a) acc →
      List.Pairwise (fun a b => key b ≤ key a)
        (l.foldl (fun acc x => insertDesc key x acc) acc) := by
  intro l
  induction l with
  | nil => intro acc h; exact h
  | cons x xs ih =>
    intro acc h
    rw [List.foldl_cons]
    exact ih (insertDesc key x acc) (sorted_insertDesc key x acc h)

theorem sorted_sortDesc {α : Type} (key : α → Nat) (l : List α) :
    List.Pairwise (fun a b => key b ≤ key a) (sortDesc key l) :=
  sorted_foldl_insertDesc key l [] List.Pairwise.nil

theorem sortDesc_head_eq {α : Type} (key : α → Nat) (l : List α) (r : α) (hmem : r ∈ l)
    (hr : 100 ≤ key r) (hothers : ∀ y ∈ l, y ≠ r → key y < 100) :
    (sortDesc key l).head? = some r := by
  cases hs : sortDesc key l with
  | nil =>
    have h := (mem_sortDesc key l r).mpr hmem
    rw [hs] at h
    exact absurd h (List.not_mem_nil r)
  | cons h t =>
    have hh : h ∈ l := (mem_sortDesc key l h).mp (hs ▸ List.mem_cons_self h t)
    by_cases heq : h = r
    · rw [heq]
      rfl
    · exfalso
      have hr_mem : r ∈ h :: t := hs ▸ (mem_sortDesc key l r).mpr hmem
      rcases List.mem_cons.mp hr_mem with hcase | hcase
      · exact heq hcase.symm
      · have hsorted := sorted_sortDesc key l
        rw [hs, List.pairwise_cons] at hsorted
        have h1 : key r ≤ key h := hsorted.1 r hcase
        have h2 : key h < 100 := hothers h hh heq
        omega

theorem head?_take {α : Type} (l : List α) (n : Nat) :
    (l.take (n + 1)).head? = l.head? := by
  cases l <;> rfl

/-! ## Dereferencing lemmas (claim C8) -/

theorem derefReaction_isSome (mets : List (String × Metabolite))
    (comps : List (String × Compartment)) (r : Reaction)
    (h : ∀ t ∈ r.equation_parsed, (dictGet t.metabolite_id mets).isSome = true ∧
      (dictGet t.compartment_id comps).isSome = true) :
    (derefReaction mets comps r).isSome = true := by
  have h1 : (mapOpt (fun i => dictGet i mets)
      (r.equation_parsed.map (fun t => t.metabolite_id)).dedup).isSome = true := by
    apply mapOpt_isSome
    intro i hi
    obtain ⟨t, ht, rfl⟩ := List.mem_map.mp (List.mem_dedup.mp hi)
    exact (h t ht).1
  have h2 : (mapOpt (fun i => dictGet i comps)
      (r.equation_parsed.map (fun t => t.compartment_id)).dedup).isSome = true := by
    apply mapOpt_isSome
    intro i hi
    obtain ⟨t, ht, rfl⟩ := List.mem_map.mp (List.mem_dedup.mp hi)
    exact (h t ht).2
  obtain ⟨ms, hms⟩ := Option.isSome_iff_exists.mp h1
  obtain ⟨cs, hcs⟩ := Option.isSome_iff_exists.mp h2
  rw [derefReaction, hms, hcs]
  rfl

/-- Amended claim C8: reaction search is not defensive — it indexes
`data.metabolites[m]` and `data.compartments[m]` directly, so it fails
(uncaught `KeyError`, modelled `none`) when a ranked reaction references an
id absent from the record store (see the counterexample); when every stored
reaction's equation terms resolve, search never fails for any query. -/
theorem claim_C8_search_deref (ratio : String → String → Nat)
    (pratio : String → Option String → Nat)
    (reacs : List (String × Reaction)) (mets : List (String × Metabolite))
    (comps : List (String × Compartment))
    (h : ∀ r ∈ dictValues reacs, ∀ t ∈ r.equation_parsed,
      (dictGet t.metabolite_id mets).isSome = true ∧
      (dictGet t.compartment_id comps).isSome = true)
    (q : String) :
    (reactionResourceGet ratio pratio reacs mets comps q).isSome = true := by
  rw [reactionResourceGet]
  apply mapOpt_isSome
  intro r hr
  apply derefReaction_isSome
  apply h
  rw [searchReactions] at hr
  have hr' := (List.take_sublist 30 _).subset hr
  exact (mem_sortDesc _ _ _).mp hr'

/-- Witness for the amended C8: a fully resolvable one-reaction store. -/
theorem claim_C8_search_deref_witness :
    (reactionResourceGet (fun _ _ => 0) (fun _ _ => 0)
      (loadReactions [] [{ mnx_id := "R1", equation := "1 M1@C1 = 1 M2@C1", ec := "" }]).1
      [("M1", { mnx_id := "M1", name := "m1", formula := "", annot := [] }),
       ("M2", { mnx_id := "M2", name := "m2", formula := "", annot := [] })]
      [("C1", { mnx_id := "C1", name := "c1", xref := "", annot := [] })]
      "anything").isSome = true :=
  claim_C8_search_deref (fun _ _ => 0) (fun _ _ => 0)
    (loadReactions [] [{ mnx_id := "R1", equation := "1 M1@C1 = 1 M2@C1", ec := "" }]).1
    [("M1", { mnx_id := "M1", name := "m1", formula := "", annot := [] }),
     ("M2", { mnx_id := "M2", name := "m2", formula := "", annot := [] })]
    [("C1", { mnx_id := "C1", name := "c1", xref := "", annot := [] })]
    (by decide) "anything"

/-- Counterexample to C8 as stated: a retained reaction whose terms reference
metabolite ids absent from the record store makes the search raise
(`KeyError`, modelled `none`) instead of being handled defensively. -/
theorem claim_C8_counterexample :
    reactionResourceGet (fun _ _ => 0) (fun _ _ => 0)
      (loadReactions [] [{ mnx_id := "R1", equation := "1 M1@C1 = 1 M2@C1", ec := "" }]).1
      [] [] "x" = none := by
  decide

/-- Amended claim C9: reaction search results are at most 30 and sorted
descending by score with stable ties; the exact-id-match entity is ranked at
position 0 when its id similarity is 100 and every other reaction scores
strictly below 100 (with an equal score an earlier-iterated entity wins the
tie instead — see the counterexample); metabolite search returns at most 30
entities, each satisfying the substring match, in store order without any
scoring. -/
theorem claim_C9_search_ranking :
    (∀ (ratio : String → String → Nat) (pratio : String → Option String → Nat)
      (reacs : List (String × Reaction)) (q : String),
      (searchReactions ratio pratio reacs q).length ≤ 30) ∧
    (∀ (ratio : String → String → Nat) (pratio : String → Option String → Nat)
      (reacs : List (String × Reaction)) (q : String),
      List.Pairwise
        (fun a b => reactionScoreKey ratio pratio q b ≤ reactionScoreKey ratio pratio q a)
        (searchReactions ratio pratio reacs q)) ∧
    (∀ (ratio : String → String → Nat) (pratio : String → Option String → Nat)
      (reacs : List (String × Reaction)) (q : String) (r : Reaction),
      r ∈ dictValues reacs → ratio q r.mnx_id = 100 →
      (∀ r' ∈ dictValues reacs, r' ≠ r → reactionScoreKey ratio pratio q r' < 100) →
      (searchReactions ratio pratio reacs q).head? = some r) ∧
    (∀ (mets : List (String × Metabolite)) (q : String),
      (metaboliteResourceGet mets q).length ≤ 30 ∧
      ∀ m ∈ metaboliteResourceGet mets q, metaboliteMatch m q = true) := by
  refine ⟨?_, ?_, ?_, ?_⟩
  · intro ratio pratio reacs q
    exact List.length_take_le 30 _
  · intro ratio pratio reacs q
    exact (sorted_sortDesc (reactionScoreKey ratio pratio q) (dictValues reacs)).sublist
      (List.take_sublist 30 _)
  · intro ratio pratio reacs q r hmem hself hothers
    rw [searchReactions]
    have h30 : (30 : Nat) = 29 + 1 := rfl
    rw [h30, head?_take]
    apply sortDesc_head_eq
    · exact hmem
    · calc (100 : Nat) = ratio q r.mnx_id := hself.symm
        _ ≤ max (ratio q r.mnx_id) (pratio q r.name) := Nat.le_max_left _ _
        _ ≤ reactionScoreKey ratio pratio q r := Nat.le_max_left _ _
    · exact hothers
  · intro mets q
    constructor
    · exact List.length_take_le 30 _
    · intro m hm
      have hm' := (List.take_sublist 30 _).subset hm
      exact (List.mem_filter.mp hm').2

/-- Witness for the amended C9: two stored reactions, query equal to the
second one's id; with a similarity that is 100 only on identical strings the
exact match is ranked first, and the metabolite conjunct at a concrete
store. -/
theorem claim_C9_search_ranking_witness :
    (searchReactions (fun a b => if a = b then 100 else 0) (fun _ _ => 0)
      (loadReactions [] [{ mnx_id := "R2", equation := "1 a@b = 1 c@d", ec := "" },
                         { mnx_id := "R1", equation := "1 a@b = 1 c@d", ec := "" }]).1
      "R1").head? =
      some { mnx_id := "R1", name := none, equation_string := "1 a@b = 1 c@d",
             equation_parsed :=
               [{ metabolite_id := "a", compartment_id := "b", coefficient := -1 },
                { metabolite_id := "c", compartment_id := "d", coefficient := 1 }],
             ec := "", annot := [] } ∧
    (metaboliteResourceGet
      [("M1", { mnx_id := "M1", name := "water", formula := "", annot := [] })]
      "wat").length ≤ 30 := by
  constructor
  · exact claim_C9_search_ranking.2.2.1 (fun a b => if a = b then 100 else 0) (fun _ _ => 0)
      (loadReactions [] [{ mnx_id := "R2", equation := "1 a@b = 1 c@d", ec := "" },
                         { mnx_id := "R1", equation := "1 a@b = 1 c@d", ec := "" }]).1
      "R1"
      { mnx_id := "R1", name := none, equation_string := "1 a@b = 1 c@d",
        equation_parsed :=
          [{ metabolite_id := "a", compartment_id := "b", coefficient := -1 },
           { metabolite_id := "c", compartment_id := "d", coefficient := 1 }],
        ec := "", annot := [] }
      (by decide) (by decide) (by decide)
  · exact (claim_C9_search_ranking.2.2.2
      [("M1", { mnx_id := "M1", name := "water", formula := "", annot := [] })] "wat").1

/-- Counterexample to C9 as stated: metabolite `"AB"` is in the store and the
query is its exact canonical id, yet position 0 holds the earlier-iterated
metabolite `"XAB"`, whose id contains the query as a substring. -/
theorem claim_C9_counterexample :
    (metaboliteResourceGet
      [("XAB", { mnx_id := "XAB", name := "n1", formula := "", annot := [] }),
       ("AB", { mnx_id := "AB", name := "n2", formula := "", annot := [] })] "AB").head? ≠
      some { mnx_id := "AB", name := "n2", formula := "", annot := [] } := by
  decide
